import Mathlib

/-!
Verification of the legal-document chunking core
(`src/s3_LegalChunkingStrategy.py`, class `LegalChunkingStrategy`).

Python strings are modelled as `List Char`; a Python list of
one-key dicts `[{"text": t}, ...]` is modelled as `List (List Char)`.
The external tiktoken tokenizer (`self.encoder`) is modelled as an
abstract `Encoder` record with `encode`/`decode` functions; concrete
executable encoders are supplied for witnesses and counterexamples.
The configuration fields `self.chunk_size` and `self.overlap` are
passed as explicit arguments.
-/

namespace LegalChunking

/-- Model of the external tokenizer object (`tiktoken` encoding):
`encode` maps text to a token-id sequence and `decode` maps token ids
back to text. -/
structure Encoder where
  encode : List Char → List Nat
  decode : List Nat → List Char

/-- `LegalChunkingStrategy.count_tokens`: `len(self.encoder.encode(text))`. -/
def count_tokens (enc : Encoder) (text : List Char) : Nat :=
  (enc.encode text).length

/-- A concrete executable tokenizer where every character is one token.
It satisfies `decode (encode t) = t` for all texts. -/
def charEncoder : Encoder where
  encode := fun l => l.map Char.toNat
  decode := fun l => l.map Char.ofNat

/-- A concrete executable tokenizer that tokenizes only the non-space
characters (a space merges with its neighbours, as in BPE-style
vocabularies where `" b"` is a single token). -/
def nsEncoder : Encoder where
  encode := fun l => (l.filter (fun c => !(c = ' '))).map Char.toNat
  decode := fun l => l.map Char.ofNat

/-- The whitespace characters removed by Python's `str.strip()`
(restricted to the ASCII whitespace set). -/
def isPySpace (c : Char) : Bool :=
  c = ' ' || c = '\t' || c = '\n' || c = '\r' || c = '\x0b' || c = '\x0c'

/-- Python `str.strip()`: remove leading and trailing whitespace. -/
def pyStrip (l : List Char) : List Char :=
  ((l.dropWhile isPySpace).reverse.dropWhile isPySpace).reverse

/-- The circled-numeral clause markers `①…⑳` of the pattern in
`_split_by_paragraph`. -/
def circledNumerals : List Char :=
  "①②③④⑤⑥⑦⑧⑨⑩⑪⑫⑬⑭⑮⑯⑰⑱⑲⑳".data

/-- Continuation of the article-pattern match after `제`, the digits `ds`
and `조` have been consumed: try the optional greedy suffix `의\d+` on the
remaining text `t`. -/
def matchArticleTail (ds t : List Char) : List Char × List Char :=
  if t.head? = some '의' then
    let ds2 := t.tail.takeWhile Char.isDigit
    if ds2.isEmpty then ('제' :: ds ++ ['조'], t)
    else ('제' :: ds ++ '조' :: '의' :: ds2, t.tail.drop ds2.length)
  else ('제' :: ds ++ ['조'], t)

/-- Attempt to match the article pattern `제\d+조(?:의\d+)?` at the head
of `l` (Python `re` semantics: greedy `\d+`, optional greedy suffix).
Returns the matched text and the remaining characters.
`\d` is modelled as the ASCII digits accepted by `Char.isDigit`. -/
def matchArticleAt : List Char → Option (List Char × List Char)
  | [] => none
  | c :: rest =>
    if c = '제' then
      let ds := rest.takeWhile Char.isDigit
      if ds.isEmpty then none
      else
        let r1 := rest.drop ds.length
        if r1.head? = some '조' then some (matchArticleTail ds r1.tail)
        else none
    else none

/-- Attempt to match the clause pattern `[①…⑳]|\d+\.` at the head of `l`. -/
def matchClauseAt : List Char → Option (List Char × List Char)
  | [] => none
  | c :: rest =>
    if circledNumerals.contains c then some ([c], rest)
    else if c.isDigit then
      let ds := (c :: rest).takeWhile Char.isDigit
      match (c :: rest).drop ds.length with
      | '.' :: rest2 => some (ds ++ ['.'], rest2)
      | _ => none
    else none

/-- `re.match(pattern + "$", part)`: the article pattern matches the whole
string.  With the greedy maximal-munch matcher this holds exactly when the
match consumes every character. -/
def isArticleMarker (l : List Char) : Bool :=
  match matchArticleAt l with
  | some (_, rest) => rest.isEmpty
  | none => false

/-- Scanner for `re.split` with one capturing group: scan left to right,
emitting the text between matches and each match itself.
`fuel` bounds the recursion; `fuel ≥ length of the remaining text` always
holds at call sites because every match consumes at least one character. -/
def reSplitGo (matchAt : List Char → Option (List Char × List Char)) :
    Nat → List Char → List Char → List (List Char)
  | _, acc, [] => [acc.reverse]
  | 0, acc, rest => [acc.reverse ++ rest]
  | fuel + 1, acc, c :: rest =>
    match matchAt (c :: rest) with
    | some (m, rest') => acc.reverse :: m :: reSplitGo matchAt fuel [] rest'
    | none => reSplitGo matchAt fuel (c :: acc) rest

/-- `re.split(r'(pattern)', text)`: alternating list
`[text₀, match₁, text₁, match₂, …, textₙ]`. -/
def reSplit (matchAt : List Char → Option (List Char × List Char))
    (l : List Char) : List (List Char) :=
  reSplitGo matchAt l.length [] l

/-- The consecutive token windows of `split_by_tokens`
(`for i in range(0, len(tokens), max_tokens): tokens[i:i+max_tokens]`).
`fuel` bounds the recursion; `fuel ≥ tokens.length` at call sites.
(`max_tokens = 0` raises `ValueError` in Python; all claims assume a
positive `max_tokens`.) -/
def tokenWindowsAux : Nat → Nat → List Nat → List (List Nat)
  | 0, _, _ => []
  | _ + 1, _, [] => []
  | fuel + 1, m, t :: ts => (t :: ts).take m :: tokenWindowsAux fuel m ((t :: ts).drop m)

/-- The token windows of the encoded text. -/
def tokenWindows (m : Nat) (l : List Nat) : List (List Nat) :=
  tokenWindowsAux l.length m l

/-- `LegalChunkingStrategy.split_by_tokens`: encode, cut into windows of
at most `max_tokens` token ids, decode each window. -/
def split_by_tokens (enc : Encoder) (text : List Char) (maxTokens : Nat) :
    List (List Char) :=
  (tokenWindows maxTokens (enc.encode text)).map enc.decode

/-- Loop body of `_split_by_paragraph`: iterate over the clause parts with
the running buffer `current` and the tracked token count `ct`
(`current_chunk` / `current_tokens` in the source). -/
def sbpGo (enc : Encoder) (article : List Char) (maxTokens : Nat) :
    List (List Char) → List Char → Nat → List (List Char)
  | [], current, _ =>
    if pyStrip current = article then [] else [pyStrip current]
  | p :: ps, current, ct =>
    if pyStrip p = [] then sbpGo enc article maxTokens ps current ct
    else
      let pt := count_tokens enc p
      if maxTokens < pt then
        (if pyStrip current = article then [] else [pyStrip current]) ++
        split_by_tokens enc (article ++ ' ' :: p) maxTokens ++
        sbpGo enc article maxTokens ps (article ++ [' '])
          (count_tokens enc (article ++ [' ']))
      else if ct + pt ≤ maxTokens then
        sbpGo enc article maxTokens ps (current ++ p ++ [' ']) (ct + pt)
      else
        (if pyStrip current = article then [] else [pyStrip current]) ++
        sbpGo enc article maxTokens ps (article ++ ' ' :: p ++ [' '])
          (count_tokens enc (article ++ ' ' :: p ++ [' ']))

/-- `LegalChunkingStrategy._split_by_paragraph` (Lean identifiers cannot
begin with an underscore): split `content` on clause markers and greedily
pack clauses behind the `article` header. -/
def split_by_paragraph (enc : Encoder) (article content : List Char)
    (maxTokens : Nat) : List (List Char) :=
  sbpGo enc article maxTokens (reSplit matchClauseAt content)
    (article ++ [' ']) (count_tokens enc (article ++ [' ']))

/-- Loop body of `split_by_article`: the `while i < len(parts)` loop.
`fuel` bounds the recursion (the marker branch advances by two parts);
`fuel ≥ parts.length` at call sites. -/
def sbaGo (enc : Encoder) (maxTokens : Nat) :
    Nat → List (List Char) → List Char → Nat → List (List Char)
  | _, [], current, _ => if current = [] then [] else [current]
  | 0, _ :: _, current, _ => if current = [] then [] else [current]
  | fuel + 1, p :: ps, current, ct =>
    let part := pyStrip p
    if part = [] then sbaGo enc maxTokens fuel ps current ct
    else if isArticleMarker part then
      let content := (ps.head?.map pyStrip).getD []
      let fullText := part ++ ' ' :: content
      let tt := count_tokens enc fullText
      if tt ≤ maxTokens then
        if ct + tt ≤ maxTokens then
          sbaGo enc maxTokens fuel ps.tail
            (if current = [] then fullText else current ++ ' ' :: fullText)
            (ct + tt)
        else
          (if current = [] then [] else [current]) ++
          sbaGo enc maxTokens fuel ps.tail fullText tt
      else
        (if current = [] then [] else [current]) ++
        split_by_paragraph enc part content maxTokens ++
        sbaGo enc maxTokens fuel ps.tail [] 0
    else
      let pt := count_tokens enc part
      if maxTokens < pt then
        (if current = [] then [] else [current]) ++
        split_by_tokens enc part maxTokens ++
        sbaGo enc maxTokens fuel ps [] 0
      else if ct + pt ≤ maxTokens then
        sbaGo enc maxTokens fuel ps
          (if current = [] then part else current ++ ' ' :: part)
          (ct + pt)
      else
        (if current = [] then [] else [current]) ++
        sbaGo enc maxTokens fuel ps part pt

/-- `LegalChunkingStrategy.split_by_article`: split on the article pattern
and run the greedy packing loop. -/
def split_by_article (enc : Encoder) (text : List Char) (maxTokens : Nat) :
    List (List Char) :=
  let parts := reSplit matchArticleAt text
  sbaGo enc maxTokens parts.length parts [] 0

/-- The chunk metadata dict.  `has_overlap` is `none` while the key is
absent (before `apply_overlap`) and `some b` once `apply_overlap` has set
it. -/
structure Metadata where
  doc_id : List Char
  doc_name : List Char
  page : Int
  chunk_tokens : Nat
  has_overlap : Option Bool := none
deriving DecidableEq, Repr, Inhabited

/-- One output chunk dict. -/
structure Chunk where
  chunk_id : List Char
  content : List Char
  metadata : Metadata
deriving DecidableEq, Repr, Inhabited

/-- One element of the input `text_blocks` array.  Each field is `none`
when the corresponding key is absent from the JSON object (accessing an
absent key with `block[k]` raises `KeyError`, modelled as an error
value). -/
structure TextBlock where
  doc_id : Option (List Char) := none
  doc_name : Option (List Char) := none
  page : Option Int := none
  text : Option (List Char) := none
deriving DecidableEq, Repr, Inhabited

/-- The decimal digit character of `d` (`d < 10` at use sites). -/
def digitChar (d : Nat) : Char := Char.ofNat (48 + d)

/-- Decimal digits of `n`, least significant first.  `fuel ≥ n` at call
sites, which bounds the recursion. -/
def natDigitsAux : Nat → Nat → List Char
  | 0, _ => []
  | _ + 1, 0 => []
  | fuel + 1, n + 1 => digitChar ((n + 1) % 10) :: natDigitsAux fuel ((n + 1) / 10)

/-- The decimal digit string of `n` (most significant first). -/
def natDigits (n : Nat) : List Char :=
  if n = 0 then ['0'] else (natDigitsAux n n).reverse

/-- Left-pad a digit string with `'0'` to width 5 (Python `f"{n:05d}"`). -/
def pad5 (l : List Char) : List Char :=
  List.replicate (5 - l.length) '0' ++ l

/-- The chunk identifier `f"chunk_{counter:05d}"`. -/
def formatChunkId (n : Nat) : List Char :=
  "chunk_".data ++ pad5 (natDigits n)

/-- Inner loop of `process_from_unified_json`: emit one chunk per content
string of the current block, threading the chunk counter.  Accessing
`block["doc_id"]` / `block["doc_name"]` raises `KeyError` when absent;
`block.get("page", 0)` defaults to `0`. -/
def blockChunks (enc : Encoder) (b : TextBlock) :
    Nat → List (List Char) → Except (List Char) (List Chunk)
  | _, [] => .ok []
  | counter, ct :: cts =>
    match b.doc_id with
    | none => .error "doc_id".data
    | some did =>
      match b.doc_name with
      | none => .error "doc_name".data
      | some dn =>
        let chunk : Chunk :=
          { chunk_id := formatChunkId counter
            content := ct
            metadata :=
              { doc_id := did, doc_name := dn, page := b.page.getD 0
                chunk_tokens := count_tokens enc ct, has_overlap := none } }
        match blockChunks enc b (counter + 1) cts with
        | .error e => .error e
        | .ok rest => .ok (chunk :: rest)

/-- Outer loop of `process_from_unified_json`: run `split_by_article`
over each block's text (`block["text"]`, `KeyError` when absent) and
assemble the chunks, threading the chunk counter across blocks. -/
def assembleGo (enc : Encoder) (chunkSize : Nat) :
    List TextBlock → Nat → Except (List Char) (List Chunk)
  | [], _ => .ok []
  | b :: bs, counter =>
    match b.text with
    | none => .error "text".data
    | some t =>
      let tcs := split_by_article enc t chunkSize
      match blockChunks enc b counter tcs with
      | .error e => .error e
      | .ok cs =>
        match assembleGo enc chunkSize bs (counter + tcs.length) with
        | .error e => .error e
        | .ok rest => .ok (cs ++ rest)

/-- The preview text appended by `apply_overlap`:
`f"\n\n[다음 내용 미리보기]\n{overlap_text}..."` where `overlap_text` is the
decoding of the first `overlap` token ids of the next chunk's content. -/
def previewText (enc : Encoder) (overlap : Nat) (nextContent : List Char) :
    List Char :=
  "\n\n[다음 내용 미리보기]\n".data ++
  enc.decode ((enc.encode nextContent).take overlap) ++ "...".data

/-- One iteration of the `apply_overlap` loop: rebuild chunk `i` given its
successor `chunks[i+1]` (`none` for the last chunk).  `has_overlap` is set
to `i < len(chunks) - 1`, i.e. to whether a successor exists; the preview
is appended only when the successor shares the `doc_id` and its content
encodes to strictly more than `overlap` token ids. -/
def overlapStep (enc : Encoder) (overlap : Nat) (c : Chunk)
    (next? : Option Chunk) : Chunk :=
  let content :=
    match next? with
    | some c2 =>
      if c2.metadata.doc_id = c.metadata.doc_id ∧
          overlap < (enc.encode c2.content).length then
        c.content ++ previewText enc overlap c2.content
      else c.content
    | none => c.content
  { c with
    content := content
    metadata :=
      { c.metadata with
        has_overlap := some next?.isSome
        chunk_tokens := count_tokens enc content } }

/-- The `for i, chunk in enumerate(chunks)` loop of `apply_overlap`:
chunk `i` is rebuilt from `chunks[i]` and `chunks[i+1]`. -/
def overlapGo (enc : Encoder) (overlap : Nat) : List Chunk → List Chunk
  | [] => []
  | c :: rest => overlapStep enc overlap c rest.head? :: overlapGo enc overlap rest

/-- `LegalChunkingStrategy.apply_overlap`:
`if not chunks or self.overlap == 0: return chunks`, otherwise the loop. -/
def apply_overlap (enc : Encoder) (overlap : Nat) (chunks : List Chunk) :
    List Chunk :=
  if chunks = [] ∨ overlap = 0 then chunks
  else overlapGo enc overlap chunks

/-- `LegalChunkingStrategy.process_from_unified_json`, restricted to its
computational core: the JSON file loading, progress printing and path
handling are outside the model; the `text_blocks` array is the input.
The chunk counter starts at 1. -/
def process_from_unified_json (enc : Encoder) (chunkSize overlap : Nat)
    (blocks : List TextBlock) : Except (List Char) (List Chunk) :=
  match assembleGo enc chunkSize blocks 1 with
  | .error e => .error e
  | .ok chunks => .ok (apply_overlap enc overlap chunks)

instance {ε α : Type} [DecidableEq ε] [DecidableEq α] :
    DecidableEq (Except ε α) := fun x y =>
  match x, y with
  | .error e, .error f => decidable_of_iff (e = f) (by simp)
  | .ok a, .ok b => decidable_of_iff (a = b) (by simp)
  | .error _, .ok _ => isFalse (by simp)
  | .ok _, .error _ => isFalse (by simp)

/-! ### Properties of the forced token-window splitter -/

theorem tokenWindowsAux_nil (fuel m : Nat) : tokenWindowsAux fuel m [] = [] := by
  cases fuel <;> rfl

theorem tokenWindowsAux_join (m : Nat) (hm : 0 < m) :
    ∀ fuel l, l.length ≤ fuel → (tokenWindowsAux fuel m l).flatten = l := by
  intro fuel
  induction fuel with
  | zero =>
    intro l hl
    have hnil : l = [] := List.eq_nil_of_length_eq_zero (Nat.le_zero.mp hl)
    subst hnil; rfl
  | succ fuel ih =>
    intro l hl
    cases l with
    | nil => rfl
    | cons t ts =>
      show (t :: ts).take m ++ (tokenWindowsAux fuel m ((t :: ts).drop m)).flatten
          = t :: ts
      rw [ih ((t :: ts).drop m) (by simp only [List.length_drop, List.length_cons]; simp only [List.length_cons] at hl; omega)]
      exact List.take_append_drop m (t :: ts)

theorem tokenWindowsAux_mem_le (m : Nat) :
    ∀ fuel l, ∀ w ∈ tokenWindowsAux fuel m l, w.length ≤ m := by
  intro fuel
  induction fuel with
  | zero => intro l w hw; simp [tokenWindowsAux] at hw
  | succ fuel ih =>
    intro l w hw
    cases l with
    | nil => simp [tokenWindowsAux] at hw
    | cons t ts =>
      rcases List.mem_cons.mp hw with h | h
      · subst h; exact (List.length_take m (t :: ts)) ▸ Nat.min_le_left _ _
      · exact ih _ w h

theorem tokenWindowsAux_dropLast (m : Nat) (hm : 0 < m) :
    ∀ fuel l, l.length ≤ fuel →
      ∀ w ∈ (tokenWindowsAux fuel m l).dropLast, w.length = m := by
  intro fuel
  induction fuel with
  | zero =>
    intro l hl w hw
    have hnil : l = [] := List.eq_nil_of_length_eq_zero (Nat.le_zero.mp hl)
    subst hnil; simp [tokenWindowsAux] at hw
  | succ fuel ih =>
    intro l hl w hw
    cases l with
    | nil => simp [tokenWindowsAux] at hw
    | cons t ts =>
      have hw' : w ∈ ((t :: ts).take m :: tokenWindowsAux fuel m ((t :: ts).drop m)).dropLast := hw
      cases hd : (t :: ts).drop m with
      | nil => rw [hd, tokenWindowsAux_nil] at hw'; simp at hw'
      | cons d ds =>
        have hmlt : m < (t :: ts).length := by
          have := congrArg List.length hd
          simp only [List.length_drop] at this
          simp only [List.length_cons] at this ⊢
          omega
        have hdlen : (d :: ds).length ≤ fuel := by
          have := congrArg List.length hd
          simp only [List.length_drop] at this
          simp only [List.length_cons] at this ⊢
          simp only [List.length_cons] at hl
          omega
        cases fuel with
        | zero => simp at hdlen
        | succ g =>
          rw [hd] at hw'
          have hcons : tokenWindowsAux (g + 1) m (d :: ds)
              = (d :: ds).take m :: tokenWindowsAux g m ((d :: ds).drop m) := rfl
          rw [hcons, List.dropLast_cons₂] at hw'
          rcases List.mem_cons.mp hw' with h | h
          · subst h
            rw [List.length_take]
            exact Nat.min_eq_left (Nat.le_of_lt hmlt)
          · exact ih (d :: ds) hdlen w (by rw [hcons]; exact h)

/-! ### Characterization of the overlap pass -/

theorem overlapGo_length (enc : Encoder) (ov : Nat) :
    ∀ cs : List Chunk, (overlapGo enc ov cs).length = cs.length := by
  intro cs
  induction cs with
  | nil => rfl
  | cons c rest ih => simp [overlapGo, ih]

theorem overlapGo_getD (enc : Encoder) (ov : Nat) (d : Chunk) :
    ∀ (cs : List Chunk) (i : Nat), i < cs.length →
      (overlapGo enc ov cs).getD i d = overlapStep enc ov (cs.getD i d) cs[i + 1]? := by
  intro cs
  induction cs with
  | nil => intro i hi; simp at hi
  | cons c rest ih =>
    intro i hi
    cases i with
    | zero => cases rest <;> simp [overlapGo]
    | succ i =>
      show (overlapGo enc ov rest).getD i d = _
      rw [ih i (by simpa using hi)]
      simp

theorem overlapGo_chunk_tokens (enc : Encoder) (ov : Nat) :
    ∀ cs : List Chunk, ∀ c ∈ overlapGo enc ov cs,
      c.metadata.chunk_tokens = count_tokens enc c.content := by
  intro cs
  induction cs with
  | nil => intro c hc; simp [overlapGo] at hc
  | cons c rest ih =>
    intro x hx
    rcases List.mem_cons.mp hx with h | h
    · subst h; rfl
    · exact ih x h

theorem overlapGo_map_chunk_id (enc : Encoder) (ov : Nat) :
    ∀ cs : List Chunk,
      (overlapGo enc ov cs).map Chunk.chunk_id = cs.map Chunk.chunk_id := by
  intro cs
  induction cs with
  | nil => rfl
  | cons c rest ih => simp only [overlapGo, List.map_cons, ih]; rfl

theorem overlapGo_page (enc : Encoder) (ov : Nat) :
    ∀ cs : List Chunk, ∀ c ∈ overlapGo enc ov cs,
      ∃ c0 ∈ cs, c.metadata.page = c0.metadata.page := by
  intro cs
  induction cs with
  | nil => intro c hc; simp [overlapGo] at hc
  | cons c rest ih =>
    intro x hx
    rcases List.mem_cons.mp hx with h | h
    · exact ⟨c, List.mem_cons_self _ _, by subst h; rfl⟩
    · rcases ih x h with ⟨c0, hc0, he⟩
      exact ⟨c0, List.mem_cons_of_mem _ hc0, he⟩

/-! ### Claim C8 -/

/-- C8: for every text and positive `max_tokens`, `split_by_tokens`
returns the decodings of the consecutive windows that partition the
encoded text: the windows concatenate back to `encode(text)`, every
window has at most `max_tokens` token ids, and every window except
possibly the last has exactly `max_tokens` token ids.  (Termination on
arbitrary input is by construction: `split_by_tokens` is a total
function.) -/
theorem C8_split_by_tokens_windows (enc : Encoder) (text : List Char)
    (maxTokens : Nat) (hm : 0 < maxTokens) :
    split_by_tokens enc text maxTokens
      = (tokenWindows maxTokens (enc.encode text)).map enc.decode ∧
    (tokenWindows maxTokens (enc.encode text)).flatten = enc.encode text ∧
    (∀ w ∈ tokenWindows maxTokens (enc.encode text), w.length ≤ maxTokens) ∧
    (∀ w ∈ (tokenWindows maxTokens (enc.encode text)).dropLast,
      w.length = maxTokens) :=
  ⟨rfl, tokenWindowsAux_join maxTokens hm _ _ le_rfl,
   fun w hw => tokenWindowsAux_mem_le maxTokens _ _ w hw,
   fun w hw => tokenWindowsAux_dropLast maxTokens hm _ _ le_rfl w hw⟩

/-- Witness for C8 at the character tokenizer, text `"abcde"`,
`max_tokens = 2`. -/
theorem C8_witness :
    0 < 2 ∧
    (split_by_tokens charEncoder "abcde".data 2
      = (tokenWindows 2 (charEncoder.encode "abcde".data)).map charEncoder.decode ∧
    (tokenWindows 2 (charEncoder.encode "abcde".data)).flatten
      = charEncoder.encode "abcde".data ∧
    (∀ w ∈ tokenWindows 2 (charEncoder.encode "abcde".data), w.length ≤ 2) ∧
    (∀ w ∈ (tokenWindows 2 (charEncoder.encode "abcde".data)).dropLast,
      w.length = 2)) :=
  ⟨by decide, C8_split_by_tokens_windows charEncoder "abcde".data 2 (by decide)⟩

/-! ### Claim C10 -/

/-- C10: with a zero overlap setting, or on an empty chunk sequence,
`apply_overlap` is the identity; and with zero overlap no chunk of the
result carries `has_overlap = true` (the chunks enter the overlap pass
with the `has_overlap` key absent, modelled as `none`). -/
theorem C10_zero_overlap_identity (enc : Encoder) (ov : Nat)
    (chunks : List Chunk) :
    apply_overlap enc 0 chunks = chunks ∧
    apply_overlap enc ov [] = [] ∧
    ((∀ c ∈ chunks, c.metadata.has_overlap = none) →
      ∀ c ∈ apply_overlap enc 0 chunks, ¬ c.metadata.has_overlap = some true) := by
  refine ⟨by simp [apply_overlap], by simp [apply_overlap], ?_⟩
  intro h c hc
  rw [show apply_overlap enc 0 chunks = chunks from by simp [apply_overlap]] at hc
  rw [h c hc]
  simp

/-- Witness for C10 at a concrete one-chunk sequence. -/
theorem C10_witness :
    (∀ c ∈ [(⟨"chunk_00001".data, "xy".data,
        ⟨"A".data, "nA".data, 0, 2, none⟩⟩ : Chunk)],
      c.metadata.has_overlap = none) ∧
    (∀ c ∈ apply_overlap charEncoder 0
        [(⟨"chunk_00001".data, "xy".data,
          ⟨"A".data, "nA".data, 0, 2, none⟩⟩ : Chunk)],
      ¬ c.metadata.has_overlap = some true) :=
  ⟨by decide,
   (C10_zero_overlap_identity charEncoder 5
     [(⟨"chunk_00001".data, "xy".data,
       ⟨"A".data, "nA".data, 0, 2, none⟩⟩ : Chunk)]).2.2 (by decide)⟩

/-! ### Claims C2 and C4: the overlap pass -/

theorem apply_overlap_pos (enc : Encoder) (ov : Nat) (chunks : List Chunk)
    (h : chunks ≠ []) (hov : ov ≠ 0) :
    apply_overlap enc ov chunks = overlapGo enc ov chunks := by
  simp [apply_overlap, h, hov]

theorem overlapStep_has_overlap (enc : Encoder) (ov : Nat) (c : Chunk)
    (n? : Option Chunk) :
    (overlapStep enc ov c n?).metadata.has_overlap = some n?.isSome := rfl

theorem overlapStep_content_none (enc : Encoder) (ov : Nat) (c : Chunk) :
    (overlapStep enc ov c none).content = c.content := rfl

theorem overlapStep_content_some (enc : Encoder) (ov : Nat) (c c2 : Chunk) :
    (overlapStep enc ov c (some c2)).content =
      if c2.metadata.doc_id = c.metadata.doc_id ∧
          ov < (enc.encode c2.content).length then
        c.content ++ previewText enc ov c2.content
      else c.content := rfl

theorem previewText_ne_nil (enc : Encoder) (ov : Nat) (nc : List Char) :
    previewText enc ov nc ≠ [] := by
  unfold previewText
  cases hlit : "\n\n[다음 내용 미리보기]\n".data with
  | nil => exact absurd hlit (by decide)
  | cons a as => simp [hlit]

/-- Counterexample to C2 as stated: with `overlap = 1` and two chunks of
different documents, the first chunk receives `has_overlap = true`
although no preview was appended to its content (and although it is the
last chunk of its own `doc_id`): the claimed equivalence between
`has_overlap` and a preview having been appended fails. -/
theorem C2_counterexample :
    ¬ ((((apply_overlap charEncoder 1
          [⟨"chunk_00001".data, "xy".data, ⟨"A".data, "nA".data, 0, 2, none⟩⟩,
           ⟨"chunk_00002".data, "zw".data, ⟨"B".data, "nB".data, 0, 2, none⟩⟩]).getD
            0 default).metadata.has_overlap = some true)
      ↔ (((apply_overlap charEncoder 1
          [⟨"chunk_00001".data, "xy".data, ⟨"A".data, "nA".data, 0, 2, none⟩⟩,
           ⟨"chunk_00002".data, "zw".data, ⟨"B".data, "nB".data, 0, 2, none⟩⟩]).getD
            0 default).content
          ≠ ([⟨"chunk_00001".data, "xy".data, ⟨"A".data, "nA".data, 0, 2, none⟩⟩,
              (⟨"chunk_00002".data, "zw".data,
                ⟨"B".data, "nB".data, 0, 2, none⟩⟩ : Chunk)].getD 0 default).content)) := by
  decide

/-- C2 (amended): after `apply_overlap` with a positive overlap setting,
`has_overlap` is `some true` exactly when the chunk is not the last chunk
of the *whole sequence* (regardless of `doc_id`), and the content was
extended by a preview exactly when the successor exists, shares the
`doc_id`, and its content encodes to strictly more than `overlap` token
ids. -/
theorem C2_amended_has_overlap (enc : Encoder) (ov : Nat)
    (chunks : List Chunk) (d : Chunk) (hov : 0 < ov)
    (i : Nat) (hi : i < chunks.length) :
    ((((apply_overlap enc ov chunks).getD i d).metadata.has_overlap = some true)
      ↔ i + 1 < chunks.length) ∧
    ((((apply_overlap enc ov chunks).getD i d).content ≠ (chunks.getD i d).content)
      ↔ ∃ c2, chunks[i + 1]? = some c2 ∧
          c2.metadata.doc_id = (chunks.getD i d).metadata.doc_id ∧
          ov < (enc.encode c2.content).length) := by
  have hne : chunks ≠ [] := by
    intro h; rw [h] at hi; simp at hi
  rw [apply_overlap_pos enc ov chunks hne (Nat.pos_iff_ne_zero.mp hov),
    overlapGo_getD enc ov d chunks i hi]
  constructor
  · rw [overlapStep_has_overlap]
    cases hn : chunks[i + 1]? with
    | none =>
      simp only [Option.isSome_none]
      rw [List.getElem?_eq_none_iff] at hn
      simp only [Option.some.injEq]
      constructor
      · intro h; exact absurd h (by decide)
      · intro h; omega
    | some c2 =>
      simp only [Option.isSome_some, Option.some.injEq]
      have : i + 1 < chunks.length := by
        rcases List.getElem?_eq_some_iff.mp hn with ⟨h, _⟩
        exact h
      constructor
      · intro _; exact this
      · intro _; trivial
  · cases hn : chunks[i + 1]? with
    | none => rw [overlapStep_content_none]; simp
    | some c2 =>
      rw [overlapStep_content_some]
      by_cases hcond : c2.metadata.doc_id = (chunks.getD i d).metadata.doc_id ∧
          ov < (enc.encode c2.content).length
      · rw [if_pos hcond]
        simp only [ne_eq, List.append_right_eq_self]
        constructor
        · intro _; exact ⟨c2, rfl, hcond⟩
        · intro _; exact previewText_ne_nil enc ov c2.content
      · simp only [if_neg hcond]
        constructor
        · intro h; exact absurd rfl h
        · intro h
          rcases h with ⟨c2', hc2', hcond'⟩
          rw [Option.some.injEq] at hc2'
          subst hc2'
          exact absurd hcond' hcond

/-- Witness for C2 (amended) at a concrete two-chunk same-document
sequence with `overlap = 1`. -/
theorem C2_amended_witness :
    0 < 1 ∧ 0 < 2 ∧
    (((((apply_overlap charEncoder 1
        [⟨"chunk_00001".data, "ab".data, ⟨"E".data, "nE".data, 0, 2, none⟩⟩,
         ⟨"chunk_00002".data, "cd".data, ⟨"E".data, "nE".data, 0, 2, none⟩⟩]).getD
          0 default).metadata.has_overlap = some true)
      ↔ 0 + 1 < ([⟨"chunk_00001".data, "ab".data, ⟨"E".data, "nE".data, 0, 2, none⟩⟩,
          (⟨"chunk_00002".data, "cd".data,
            ⟨"E".data, "nE".data, 0, 2, none⟩⟩ : Chunk)] : List Chunk).length) ∧
    ((((apply_overlap charEncoder 1
        [⟨"chunk_00001".data, "ab".data, ⟨"E".data, "nE".data, 0, 2, none⟩⟩,
         ⟨"chunk_00002".data, "cd".data, ⟨"E".data, "nE".data, 0, 2, none⟩⟩]).getD
          0 default).content
        ≠ (([⟨"chunk_00001".data, "ab".data, ⟨"E".data, "nE".data, 0, 2, none⟩⟩,
            (⟨"chunk_00002".data, "cd".data,
              ⟨"E".data, "nE".data, 0, 2, none⟩⟩ : Chunk)] : List Chunk).getD 0 default).content)
      ↔ ∃ c2, ([⟨"chunk_00001".data, "ab".data, ⟨"E".data, "nE".data, 0, 2, none⟩⟩,
          (⟨"chunk_00002".data, "cd".data,
            ⟨"E".data, "nE".data, 0, 2, none⟩⟩ : Chunk)] : List Chunk)[0 + 1]? = some c2 ∧
          c2.metadata.doc_id
            = (([⟨"chunk_00001".data, "ab".data, ⟨"E".data, "nE".data, 0, 2, none⟩⟩,
              (⟨"chunk_00002".data, "cd".data,
                ⟨"E".data, "nE".data, 0, 2, none⟩⟩ : Chunk)] : List Chunk).getD 0
                  default).metadata.doc_id ∧
          1 < (charEncoder.encode c2.content).length)) :=
  ⟨by decide, by decide,
   C2_amended_has_overlap charEncoder 1 _ default (by decide) 0 (by decide)⟩

/-- Counterexample to C4 as stated: with `overlap = 1` and two chunks of
the same document whose successor content encodes to exactly
`overlap_tokens` (= 1) token ids, the claim requires a preview to be
appended, but the code's condition is strict (`len(tokens) > self.overlap`)
and leaves the content unchanged. -/
theorem C4_counterexample :
    ¬ ((([⟨"chunk_00001".data, "p".data, ⟨"D".data, "n".data, 0, 1, none⟩⟩,
          (⟨"chunk_00002".data, "q".data,
            ⟨"D".data, "n".data, 0, 1, none⟩⟩ : Chunk)] : List Chunk).getD 1
              default).metadata.doc_id
          = (([⟨"chunk_00001".data, "p".data, ⟨"D".data, "n".data, 0, 1, none⟩⟩,
            (⟨"chunk_00002".data, "q".data,
              ⟨"D".data, "n".data, 0, 1, none⟩⟩ : Chunk)] : List Chunk).getD 0
                default).metadata.doc_id ∧
        1 ≤ (charEncoder.encode
          (([⟨"chunk_00001".data, "p".data, ⟨"D".data, "n".data, 0, 1, none⟩⟩,
            (⟨"chunk_00002".data, "q".data,
              ⟨"D".data, "n".data, 0, 1, none⟩⟩ : Chunk)] : List Chunk).getD 1
                default).content).length →
      ((apply_overlap charEncoder 1
          [⟨"chunk_00001".data, "p".data, ⟨"D".data, "n".data, 0, 1, none⟩⟩,
           ⟨"chunk_00002".data, "q".data, ⟨"D".data, "n".data, 0, 1, none⟩⟩]).getD
            0 default).content
        ≠ (([⟨"chunk_00001".data, "p".data, ⟨"D".data, "n".data, 0, 1, none⟩⟩,
          (⟨"chunk_00002".data, "q".data,
            ⟨"D".data, "n".data, 0, 1, none⟩⟩ : Chunk)] : List Chunk).getD 0
              default).content) := by
  decide

/-- C4 (amended): for positions with a successor, a preview — the
decoding of the successor's first `overlap` token ids, wrapped in the
delimiter — is appended exactly when the successor shares the `doc_id`
and encodes to *strictly more than* `overlap` token ids; with at most
`overlap` token ids, a different `doc_id`, or no successor, the content
is unchanged. -/
theorem C4_amended_preview (enc : Encoder) (ov : Nat) (chunks : List Chunk)
    (d : Chunk) (hov : 0 < ov) :
    (∀ i c2, chunks[i + 1]? = some c2 →
      (c2.metadata.doc_id = (chunks.getD i d).metadata.doc_id →
        ov < (enc.encode c2.content).length →
        ((apply_overlap enc ov chunks).getD i d).content
          = (chunks.getD i d).content ++ previewText enc ov c2.content) ∧
      (¬ (c2.metadata.doc_id = (chunks.getD i d).metadata.doc_id ∧
            ov < (enc.encode c2.content).length) →
        ((apply_overlap enc ov chunks).getD i d).content
          = (chunks.getD i d).content)) ∧
    (∀ i, i + 1 = chunks.length →
      ((apply_overlap enc ov chunks).getD i d).content
        = (chunks.getD i d).content) := by
  constructor
  · intro i c2 hn
    have hsucc : i + 1 < chunks.length :=
      (List.getElem?_eq_some_iff.mp hn).1
    have hi : i < chunks.length := Nat.lt_of_succ_lt hsucc
    have hne : chunks ≠ [] := by
      intro h; rw [h] at hi; simp at hi
    rw [apply_overlap_pos enc ov chunks hne (Nat.pos_iff_ne_zero.mp hov),
      overlapGo_getD enc ov d chunks i hi, hn, overlapStep_content_some]
    constructor
    · intro h1 h2
      rw [if_pos ⟨h1, h2⟩]
    · intro hcond
      rw [if_neg hcond]
  · intro i hlen
    have hi : i < chunks.length := by omega
    have hne : chunks ≠ [] := by
      intro h; rw [h] at hi; simp at hi
    have hn : chunks[i + 1]? = none :=
      List.getElem?_eq_none (by omega)
    rw [apply_overlap_pos enc ov chunks hne (Nat.pos_iff_ne_zero.mp hov),
      overlapGo_getD enc ov d chunks i hi, hn, overlapStep_content_none]

/-- Witness for C4 (amended) with `overlap = 2` and successor content of
3 token ids under the character tokenizer. -/
theorem C4_amended_witness :
    0 < 2 ∧
    ([⟨"chunk_00001".data, "ab".data, ⟨"F".data, "nF".data, 0, 2, none⟩⟩,
      (⟨"chunk_00002".data, "cde".data,
        ⟨"F".data, "nF".data, 0, 3, none⟩⟩ : Chunk)] : List Chunk)[0 + 1]?
      = some (⟨"chunk_00002".data, "cde".data,
          ⟨"F".data, "nF".data, 0, 3, none⟩⟩ : Chunk) ∧
    ((apply_overlap charEncoder 2
        [⟨"chunk_00001".data, "ab".data, ⟨"F".data, "nF".data, 0, 2, none⟩⟩,
         ⟨"chunk_00002".data, "cde".data, ⟨"F".data, "nF".data, 0, 3, none⟩⟩]).getD
          0 default).content
      = (([⟨"chunk_00001".data, "ab".data, ⟨"F".data, "nF".data, 0, 2, none⟩⟩,
          (⟨"chunk_00002".data, "cde".data,
            ⟨"F".data, "nF".data, 0, 3, none⟩⟩ : Chunk)] : List Chunk).getD 0
            default).content
        ++ previewText charEncoder 2 "cde".data :=
  ⟨by decide, by decide,
   ((C4_amended_preview charEncoder 2
      [⟨"chunk_00001".data, "ab".data, ⟨"F".data, "nF".data, 0, 2, none⟩⟩,
       ⟨"chunk_00002".data, "cde".data, ⟨"F".data, "nF".data, 0, 3, none⟩⟩]
      default (by decide)).1 0
      (⟨"chunk_00002".data, "cde".data, ⟨"F".data, "nF".data, 0, 3, none⟩⟩ : Chunk)
      (by decide)).1 (by decide) (by decide)⟩

/-! ### Assembler invariants and claim C5 -/

theorem blockChunks_mem (enc : Encoder) (b : TextBlock) :
    ∀ (cts : List (List Char)) (counter : Nat) (cs : List Chunk),
      blockChunks enc b counter cts = .ok cs →
      ∀ c ∈ cs, c.metadata.chunk_tokens = count_tokens enc c.content ∧
        c.metadata.has_overlap = none ∧
        c.metadata.page = b.page.getD 0 := by
  intro cts
  induction cts with
  | nil =>
    intro counter cs h c hc
    simp only [blockChunks] at h
    cases h
    simp at hc
  | cons ct cts ih =>
    intro counter cs h c hc
    cases hdid : b.doc_id with
    | none => simp only [blockChunks, hdid] at h; cases h
    | some did =>
      cases hdn : b.doc_name with
      | none => simp only [blockChunks, hdid, hdn] at h; cases h
      | some dn =>
        cases hrec : blockChunks enc b (counter + 1) cts with
        | error e => simp only [blockChunks, hdid, hdn, hrec] at h; cases h
        | ok rest =>
          simp only [blockChunks, hdid, hdn, hrec] at h
          cases h
          rcases List.mem_cons.mp hc with h | h
          · subst h
            exact ⟨rfl, rfl, rfl⟩
          · exact ih (counter + 1) rest hrec c h

theorem assembleGo_mem (enc : Encoder) (chunkSize : Nat) :
    ∀ (blocks : List TextBlock) (counter : Nat) (cs : List Chunk),
      assembleGo enc chunkSize blocks counter = .ok cs →
      ∀ c ∈ cs, c.metadata.chunk_tokens = count_tokens enc c.content ∧
        c.metadata.has_overlap = none := by
  intro blocks
  induction blocks with
  | nil =>
    intro counter cs h c hc
    simp only [assembleGo] at h
    cases h
    simp at hc
  | cons b bs ih =>
    intro counter cs h c hc
    cases ht : b.text with
    | none => simp only [assembleGo, ht] at h; cases h
    | some t =>
      cases hbc : blockChunks enc b counter (split_by_article enc t chunkSize) with
      | error e => simp only [assembleGo, ht, hbc] at h; cases h
      | ok cs1 =>
        cases hrec : assembleGo enc chunkSize bs
            (counter + (split_by_article enc t chunkSize).length) with
        | error e => simp only [assembleGo, ht, hbc, hrec] at h; cases h
        | ok cs2 =>
          simp only [assembleGo, ht, hbc, hrec] at h
          cases h
          rcases List.mem_append.mp hc with h | h
          · rcases blockChunks_mem enc b _ counter cs1 hbc c h with ⟨h1, h2, _⟩
            exact ⟨h1, h2⟩
          · exact ih _ cs2 hrec c h

/-- C5: in the final output of the pipeline (after overlap injection),
`chunk_tokens` equals the length of the tokenizer's encoding of the
chunk's content, including chunks whose content was extended by a
preview. -/
theorem C5_chunk_tokens_recomputed (enc : Encoder) (chunkSize ov : Nat)
    (blocks : List TextBlock) (out : List Chunk)
    (h : process_from_unified_json enc chunkSize ov blocks = .ok out) :
    ∀ c ∈ out, c.metadata.chunk_tokens = count_tokens enc c.content := by
  intro c hc
  unfold process_from_unified_json at h
  cases ha : assembleGo enc chunkSize blocks 1 with
  | error e => rw [ha] at h; cases h
  | ok chunks =>
    rw [ha] at h
    cases h
    by_cases hid : chunks = [] ∨ ov = 0
    · rw [show apply_overlap enc ov chunks = chunks from by
        simp [apply_overlap, hid]] at hc
      exact (assembleGo_mem enc chunkSize blocks 1 chunks ha c hc).1
    · rw [show apply_overlap enc ov chunks = overlapGo enc ov chunks from by
        simp [apply_overlap]; tauto] at hc
      exact overlapGo_chunk_tokens enc ov chunks c hc

/-- Witness for C5 at a concrete two-block run with `overlap = 1`. -/
theorem C5_witness :
    process_from_unified_json charEncoder 10 1
      [{ doc_id := some "D".data, doc_name := some "N".data, page := some 3,
         text := some "hello".data },
       { doc_id := some "D".data, doc_name := some "N".data, page := some 4,
         text := some "world".data }] =
      .ok [⟨"chunk_00001".data,
            ("hello".data ++ previewText charEncoder 1 "world".data),
            ⟨"D".data, "N".data, 3,
              count_tokens charEncoder
                ("hello".data ++ previewText charEncoder 1 "world".data),
              some true⟩⟩,
           ⟨"chunk_00002".data, "world".data,
            ⟨"D".data, "N".data, 4, 5, some false⟩⟩] ∧
    ∀ c ∈ [(⟨"chunk_00001".data,
            ("hello".data ++ previewText charEncoder 1 "world".data),
            ⟨"D".data, "N".data, 3,
              count_tokens charEncoder
                ("hello".data ++ previewText charEncoder 1 "world".data),
              some true⟩⟩ : Chunk),
           ⟨"chunk_00002".data, "world".data,
            ⟨"D".data, "N".data, 4, 5, some false⟩⟩],
      c.metadata.chunk_tokens = count_tokens charEncoder c.content :=
  ⟨by decide,
   C5_chunk_tokens_recomputed charEncoder 10 1
     [{ doc_id := some "D".data, doc_name := some "N".data, page := some 3,
        text := some "hello".data },
      { doc_id := some "D".data, doc_name := some "N".data, page := some 4,
        text := some "world".data }]
     [⟨"chunk_00001".data,
       ("hello".data ++ previewText charEncoder 1 "world".data),
       ⟨"D".data, "N".data, 3,
         count_tokens charEncoder
           ("hello".data ++ previewText charEncoder 1 "world".data),
         some true⟩⟩,
      ⟨"chunk_00002".data, "world".data,
       ⟨"D".data, "N".data, 4, 5, some false⟩⟩] (by decide)⟩

/-! ### Claim C9: whitespace-only blocks are skipped -/

theorem dropWhile_of_all {p : Char → Bool} :
    ∀ {t : List Char}, (∀ c ∈ t, p c = true) → t.dropWhile p = [] := by
  intro t
  induction t with
  | nil => intro _; rfl
  | cons c ts ih =>
    intro h
    rw [List.dropWhile_cons_of_pos (h c (List.mem_cons_self c ts))]
    exact ih fun x hx => h x (List.mem_cons_of_mem c hx)

theorem pyStrip_all_ws {t : List Char} (h : ∀ c ∈ t, isPySpace c = true) :
    pyStrip t = [] := by
  unfold pyStrip
  rw [dropWhile_of_all h]
  rfl

theorem matchArticleAt_ws {c : Char} (rest : List Char)
    (h : isPySpace c = true) : matchArticleAt (c :: rest) = none := by
  have hne : ¬ c = '제' := by
    intro he; subst he; exact absurd h (by decide)
  simp [matchArticleAt, hne]

theorem reSplitGo_all_ws :
    ∀ (fuel : Nat) (acc rest : List Char), (∀ c ∈ rest, isPySpace c = true) →
      reSplitGo matchArticleAt fuel acc rest = [acc.reverse ++ rest] := by
  intro fuel
  induction fuel with
  | zero =>
    intro acc rest h
    cases rest with
    | nil => simp [reSplitGo]
    | cons c rs => rfl
  | succ fuel ih =>
    intro acc rest h
    cases rest with
    | nil => simp [reSplitGo]
    | cons c rs =>
      have hm : matchArticleAt (c :: rs) = none :=
        matchArticleAt_ws rs (h c (List.mem_cons_self c rs))
      have hstep : reSplitGo matchArticleAt (fuel + 1) acc (c :: rs)
          = reSplitGo matchArticleAt fuel (c :: acc) rs := by
        simp [reSplitGo, hm]
      rw [hstep, ih (c :: acc) rs fun x hx => h x (List.mem_cons_of_mem c hx)]
      simp

theorem split_by_article_all_ws (enc : Encoder) (cs : Nat) {t : List Char}
    (h : ∀ c ∈ t, isPySpace c = true) : split_by_article enc t cs = [] := by
  unfold split_by_article reSplit
  rw [reSplitGo_all_ws t.length [] t h]
  simp only [List.reverse_nil, List.nil_append, List.length_singleton]
  have h1 : sbaGo enc cs 1 [t] [] 0 = sbaGo enc cs 0 [] [] 0 := by
    simp [sbaGo, pyStrip_all_ws h]
  rw [h1]
  rfl

theorem assembleGo_skip (enc : Encoder) (cs : Nat) (b : TextBlock)
    (t : List Char) (hb : b.text = some t)
    (hws : ∀ c ∈ t, isPySpace c = true) :
    ∀ (pre post : List TextBlock) (counter : Nat),
      assembleGo enc cs (pre ++ b :: post) counter
        = assembleGo enc cs (pre ++ post) counter := by
  intro pre
  induction pre with
  | nil =>
    intro post counter
    show assembleGo enc cs (b :: post) counter = assembleGo enc cs post counter
    simp only [assembleGo, hb]
    rw [split_by_article_all_ws enc cs hws]
    show (match assembleGo enc cs post (counter + ([] : List (List Char)).length) with
      | .error e => .error e
      | .ok rest => .ok (([] : List Chunk) ++ rest)) = assembleGo enc cs post counter
    cases hr : assembleGo enc cs post counter with
    | error e => simp [hr]
    | ok rest => simp [hr]
  | cons a pre ih =>
    intro post counter
    show assembleGo enc cs (a :: (pre ++ b :: post)) counter
      = assembleGo enc cs (a :: (pre ++ post)) counter
    cases ht : a.text with
    | none => simp only [assembleGo, ht]
    | some ta =>
      simp only [assembleGo, ht]
      rw [ih]

/-- C9: a block whose text is present but consists only of whitespace
contributes no chunks and does not advance the chunk-id counter: the
pipeline output on a block list containing such a block equals the output
on the same list with that block removed. -/
theorem C9_whitespace_block_skipped (enc : Encoder) (chunkSize ov : Nat)
    (pre post : List TextBlock) (b : TextBlock) (t : List Char)
    (hb : b.text = some t) (hws : ∀ c ∈ t, isPySpace c = true) :
    process_from_unified_json enc chunkSize ov (pre ++ b :: post)
      = process_from_unified_json enc chunkSize ov (pre ++ post) := by
  unfold process_from_unified_json
  rw [assembleGo_skip enc chunkSize b t hb hws pre post 1]

/-- Fixture for the C9 witness: a whitespace-only block with all other
fields absent. -/
def wsBlockC9 : TextBlock := { text := some "  ".data }

/-- Fixture for the C9 witness: an ordinary block. -/
def hiBlockC9 : TextBlock :=
  { doc_id := some "D".data, doc_name := some "N".data,
    page := some 1, text := some "hi".data }

/-- Witness for C9: a whitespace-only block (even one with all other
fields absent) is dropped from a concrete run. -/
theorem C9_witness :
    wsBlockC9.text = some "  ".data ∧
    (∀ c ∈ "  ".data, isPySpace c = true) ∧
    process_from_unified_json charEncoder 10 1 ([] ++ wsBlockC9 :: [hiBlockC9])
      = process_from_unified_json charEncoder 10 1 ([] ++ [hiBlockC9]) :=
  ⟨rfl, by decide,
   C9_whitespace_block_skipped charEncoder 10 1 [] [hiBlockC9] wsBlockC9
     "  ".data rfl (by decide)⟩

/-! ### Claim C6: missing required fields -/

/-- Fixture for the C6 counterexample: a block with `doc_id`, `doc_name`
and `text` present but the `page` key absent. -/
def noPageBlockC6 : TextBlock :=
  { doc_id := some "d".data, doc_name := some "n".data,
    text := some "hello".data }

/-- Counterexample to C6 as stated: a TextBlock whose `page` key is
absent does not fail fast; the assembler silently fabricates `page = 0`
(`block.get("page", 0)`) and emits a chunk, refuting the part of the
claim that says no value is fabricated for any missing required field,
including `page`. -/
theorem C6_counterexample :
    noPageBlockC6.page = none ∧
    process_from_unified_json charEncoder 10 0 [noPageBlockC6]
      = .ok [⟨"chunk_00001".data, "hello".data,
          ⟨"d".data, "n".data, 0, 5, none⟩⟩] := by
  decide

/-- C6 (amended): the assembler fails fast (with the offending key) on a
block missing `doc_id`, `doc_name` or `text` whenever the block
contributes at least one chunk, but a missing `page` is not an error: it
is silently defaulted to `0` in every chunk emitted for the block. -/
theorem C6_amended_missing_fields (enc : Encoder) (chunkSize ov : Nat)
    (b : TextBlock) (rest : List TextBlock) :
    (b.text = none →
      process_from_unified_json enc chunkSize ov (b :: rest)
        = .error "text".data) ∧
    (∀ t, b.text = some t → b.doc_id = none →
      split_by_article enc t chunkSize ≠ [] →
      process_from_unified_json enc chunkSize ov (b :: rest)
        = .error "doc_id".data) ∧
    (∀ t did, b.text = some t → b.doc_id = some did → b.doc_name = none →
      split_by_article enc t chunkSize ≠ [] →
      process_from_unified_json enc chunkSize ov (b :: rest)
        = .error "doc_name".data) ∧
    (∀ out, process_from_unified_json enc chunkSize ov [b] = .ok out →
      ∀ c ∈ out, c.metadata.page = b.page.getD 0) := by
  refine ⟨?_, ?_, ?_, ?_⟩
  · intro h
    unfold process_from_unified_json
    simp only [assembleGo, h]
  · intro t ht hdid hne
    unfold process_from_unified_json
    cases hsp : split_by_article enc t chunkSize with
    | nil => exact absurd hsp hne
    | cons ct cts =>
      simp only [assembleGo, ht, hsp, blockChunks, hdid]
  · intro t did ht hdid hdn hne
    unfold process_from_unified_json
    cases hsp : split_by_article enc t chunkSize with
    | nil => exact absurd hsp hne
    | cons ct cts =>
      simp only [assembleGo, ht, hsp, blockChunks, hdid, hdn]
  · intro out h c hc
    unfold process_from_unified_json at h
    cases ha : assembleGo enc chunkSize [b] 1 with
    | error e => rw [ha] at h; cases h
    | ok chunks =>
      rw [ha] at h
      cases h
      have hpage : ∀ c0 ∈ chunks, c0.metadata.page = b.page.getD 0 := by
        intro c0 hc0
        cases ht : b.text with
        | none => simp only [assembleGo, ht] at ha; cases ha
        | some t =>
          cases hbc : blockChunks enc b 1 (split_by_article enc t chunkSize) with
          | error e => simp only [assembleGo, ht, hbc] at ha; cases ha
          | ok cs1 =>
            simp only [assembleGo, ht, hbc] at ha
            cases ha
            rw [List.append_nil] at hc0
            exact (blockChunks_mem enc b _ 1 cs1 hbc c0 hc0).2.2
      by_cases hid : chunks = [] ∨ ov = 0
      · rw [show apply_overlap enc ov chunks = chunks from by
          simp [apply_overlap, hid]] at hc
        exact hpage c hc
      · rw [show apply_overlap enc ov chunks = overlapGo enc ov chunks from by
          simp [apply_overlap]; tauto] at hc
        rcases overlapGo_page enc ov chunks c hc with ⟨c0, hc0, he⟩
        rw [he]
        exact hpage c0 hc0

/-- Fixture for the C6 witness: a block with no `text` key. -/
def noTextBlockC6 : TextBlock := { doc_id := some "d".data }

/-- Witness for C6 (amended): a block missing `text` makes a concrete
run fail fast with the `text` key. -/
theorem C6_amended_witness :
    noTextBlockC6.text = none ∧
    process_from_unified_json charEncoder 7 0 [noTextBlockC6]
      = .error "text".data :=
  ⟨rfl, (C6_amended_missing_fields charEncoder 7 0 noTextBlockC6 []).1 rfl⟩

/-! ### Claim C7: chunk identifiers -/

/-- Read a decimal digit string back to a number (inverse used to prove
injectivity of the identifier format). -/
def readDigits (l : List Char) : Nat :=
  l.foldl (fun a c => 10 * a + (c.toNat - 48)) 0

theorem digitChar_toNat {d : Nat} (h : d < 10) :
    (digitChar d).toNat = 48 + d := by
  interval_cases d <;> decide

theorem readDigits_natDigitsAux :
    ∀ (fuel n : Nat), n ≤ fuel →
      readDigits (natDigitsAux fuel n).reverse = n := by
  intro fuel
  induction fuel with
  | zero =>
    intro n hn
    have : n = 0 := Nat.le_zero.mp hn
    subst this
    rfl
  | succ fuel ih =>
    intro n hn
    cases n with
    | zero => rfl
    | succ k =>
      show readDigits
        (digitChar ((k + 1) % 10) :: natDigitsAux fuel ((k + 1) / 10)).reverse = k + 1
      rw [List.reverse_cons]
      unfold readDigits
      rw [List.foldl_append]
      have hdiv : (k + 1) / 10 ≤ fuel := by omega
      have hrec : (natDigitsAux fuel ((k + 1) / 10)).reverse.foldl
          (fun a c => 10 * a + (c.toNat - 48)) 0 = (k + 1) / 10 :=
        ih ((k + 1) / 10) hdiv
      rw [hrec]
      show 10 * ((k + 1) / 10) + ((digitChar ((k + 1) % 10)).toNat - 48) = k + 1
      rw [digitChar_toNat (Nat.mod_lt _ (by omega))]
      omega

theorem readDigits_natDigits (n : Nat) : readDigits (natDigits n) = n := by
  unfold natDigits
  by_cases h : n = 0
  · subst h; rfl
  · rw [if_neg h]
    exact readDigits_natDigitsAux n n le_rfl

theorem readDigits_replicate_zero :
    ∀ (k : Nat) (l : List Char),
      readDigits (List.replicate k '0' ++ l) = readDigits l := by
  intro k
  induction k with
  | zero => intro l; rfl
  | succ k ih =>
    intro l
    show readDigits (('0' :: List.replicate k '0') ++ l) = readDigits l
    rw [List.cons_append]
    show (List.replicate k '0' ++ l).foldl
        (fun a c => 10 * a + (c.toNat - 48)) (10 * 0 + ('0'.toNat - 48)) = _
    have : (10 * 0 + ('0'.toNat - 48)) = 0 := by decide
    rw [this]
    exact ih l

/-- The chunk-identifier format is injective: distinct counters give
distinct identifiers (also beyond the five-digit padding range). -/
theorem formatChunkId_inj (m n : Nat)
    (h : formatChunkId m = formatChunkId n) : m = n := by
  unfold formatChunkId pad5 at h
  have h2 : List.replicate (5 - (natDigits m).length) '0' ++ natDigits m
      = List.replicate (5 - (natDigits n).length) '0' ++ natDigits n :=
    List.append_cancel_left h
  calc m = readDigits (List.replicate (5 - (natDigits m).length) '0'
        ++ natDigits m) := by
        rw [readDigits_replicate_zero, readDigits_natDigits]
    _ = readDigits (List.replicate (5 - (natDigits n).length) '0'
        ++ natDigits n) := by rw [h2]
    _ = n := by rw [readDigits_replicate_zero, readDigits_natDigits]

/-- The sequence of `k` consecutive chunk identifiers starting at
counter value `c`. -/
def expectedIds : Nat → Nat → List (List Char)
  | _, 0 => []
  | c, k + 1 => formatChunkId c :: expectedIds (c + 1) k

theorem expectedIds_append (a b : Nat) :
    ∀ c, expectedIds c (a + b) = expectedIds c a ++ expectedIds (c + a) b := by
  induction a with
  | zero => intro c; simp [expectedIds]
  | succ a ih =>
    intro c
    rw [show a + 1 + b = (a + b) + 1 from by omega]
    show formatChunkId c :: expectedIds (c + 1) (a + b) = _
    rw [ih (c + 1)]
    show formatChunkId c :: (expectedIds (c + 1) a ++ expectedIds (c + 1 + a) b)
      = (formatChunkId c :: expectedIds (c + 1) a) ++ expectedIds (c + (a + 1)) b
    rw [show c + 1 + a = c + (a + 1) from by omega]
    rfl

theorem blockChunks_ids (enc : Encoder) (b : TextBlock) :
    ∀ (cts : List (List Char)) (counter : Nat) (cs : List Chunk),
      blockChunks enc b counter cts = .ok cs →
      cs.map Chunk.chunk_id = expectedIds counter cts.length ∧
        cs.length = cts.length := by
  intro cts
  induction cts with
  | nil =>
    intro counter cs h
    simp only [blockChunks] at h
    cases h
    exact ⟨rfl, rfl⟩
  | cons ct cts ih =>
    intro counter cs h
    cases hdid : b.doc_id with
    | none => simp only [blockChunks, hdid] at h; cases h
    | some did =>
      cases hdn : b.doc_name with
      | none => simp only [blockChunks, hdid, hdn] at h; cases h
      | some dn =>
        cases hrec : blockChunks enc b (counter + 1) cts with
        | error e => simp only [blockChunks, hdid, hdn, hrec] at h; cases h
        | ok rest =>
          simp only [blockChunks, hdid, hdn, hrec] at h
          cases h
          rcases ih (counter + 1) rest hrec with ⟨h1, h2⟩
          refine ⟨?_, by simp [h2]⟩
          show formatChunkId counter :: rest.map Chunk.chunk_id
            = expectedIds counter (cts.length + 1)
          rw [h1]
          rfl

theorem assembleGo_ids (enc : Encoder) (chunkSize : Nat) :
    ∀ (blocks : List TextBlock) (counter : Nat) (cs : List Chunk),
      assembleGo enc chunkSize blocks counter = .ok cs →
      cs.map Chunk.chunk_id = expectedIds counter cs.length := by
  intro blocks
  induction blocks with
  | nil =>
    intro counter cs h
    simp only [assembleGo] at h
    cases h
    rfl
  | cons b bs ih =>
    intro counter cs h
    cases ht : b.text with
    | none => simp only [assembleGo, ht] at h; cases h
    | some t =>
      cases hbc : blockChunks enc b counter (split_by_article enc t chunkSize) with
      | error e => simp only [assembleGo, ht, hbc] at h; cases h
      | ok cs1 =>
        cases hrec : assembleGo enc chunkSize bs
            (counter + (split_by_article enc t chunkSize).length) with
        | error e => simp only [assembleGo, ht, hbc, hrec] at h; cases h
        | ok cs2 =>
          simp only [assembleGo, ht, hbc, hrec] at h
          cases h
          rcases blockChunks_ids enc b _ counter cs1 hbc with ⟨h1, h2⟩
          have h3 : cs2.map Chunk.chunk_id
              = expectedIds (counter + cs1.length) cs2.length := by
            rw [h2]
            exact ih _ cs2 hrec
          rw [List.map_append, h1, h3, List.length_append, ← h2,
            expectedIds_append cs1.length cs2.length counter]

/-- C7: the chunk identifiers of the final pipeline output are the
zero-padded identifiers of consecutive counter values starting at the
initial counter value 1, in emission order; the identifier format is
injective, so they are pairwise distinct, strictly increasing in the
counter and gap-free. -/
theorem C7_chunk_ids_sequential (enc : Encoder) (chunkSize ov : Nat)
    (blocks : List TextBlock) (out : List Chunk)
    (h : process_from_unified_json enc chunkSize ov blocks = .ok out) :
    out.map Chunk.chunk_id = expectedIds 1 out.length ∧
    (∀ m n, formatChunkId m = formatChunkId n → m = n) := by
  refine ⟨?_, formatChunkId_inj⟩
  unfold process_from_unified_json at h
  cases ha : assembleGo enc chunkSize blocks 1 with
  | error e => rw [ha] at h; cases h
  | ok chunks =>
    rw [ha] at h
    cases h
    by_cases hid : chunks = [] ∨ ov = 0
    · rw [show apply_overlap enc ov chunks = chunks from by
        simp [apply_overlap, hid]]
      exact assembleGo_ids enc chunkSize blocks 1 chunks ha
    · rw [show apply_overlap enc ov chunks = overlapGo enc ov chunks from by
        simp [apply_overlap]; tauto]
      rw [overlapGo_map_chunk_id, overlapGo_length]
      exact assembleGo_ids enc chunkSize blocks 1 chunks ha

/-- Fixture blocks for the C7 witness. -/
def blocksC7 : List TextBlock :=
  [{ doc_id := some "D".data, doc_name := some "N".data,
     page := some 1, text := some "ab".data },
   { doc_id := some "D".data, doc_name := some "N".data,
     page := some 2, text := some "cd".data }]

/-- Fixture output for the C7 witness. -/
def outC7 : List Chunk :=
  [⟨"chunk_00001".data, "ab".data, ⟨"D".data, "N".data, 1, 2, none⟩⟩,
   ⟨"chunk_00002".data, "cd".data, ⟨"D".data, "N".data, 2, 2, none⟩⟩]

/-- Witness for C7 at a concrete two-block run with zero overlap. -/
theorem C7_witness :
    process_from_unified_json charEncoder 10 0 blocksC7 = .ok outC7 ∧
    (outC7.map Chunk.chunk_id = expectedIds 1 outC7.length ∧
     (∀ m n, formatChunkId m = formatChunkId n → m = n)) :=
  ⟨by decide,
   C7_chunk_ids_sequential charEncoder 10 0 blocksC7 outC7 (by decide)⟩

/-! ### Claim C3: header provenance in the sub-unit splitter -/

theorem nil_isPrefixOf : ∀ t : List Char, ([] : List Char).isPrefixOf t = true := by
  intro t
  cases t <;> rfl

theorem isPrefixOf_append : ∀ (a t : List Char), a.isPrefixOf (a ++ t) = true := by
  intro a t
  induction a with
  | nil => exact nil_isPrefixOf _
  | cons c cs ih =>
    show (c == c && cs.isPrefixOf (cs ++ t)) = true
    simp [ih]

theorem dropWhile_ne_nil_of_mem {p : Char → Bool} :
    ∀ {l : List Char} {c : Char}, c ∈ l → p c = false → l.dropWhile p ≠ [] := by
  intro l
  induction l with
  | nil => intro c hc _; simp at hc
  | cons x xs ih =>
    intro c hc hpc
    rcases List.mem_cons.mp hc with h | h
    · subst h
      rw [List.dropWhile_cons_of_neg (by simp [hpc])]
      simp
    · by_cases hx : p x = true
      · rw [List.dropWhile_cons_of_pos hx]
        exact ih h hpc
      · rw [List.dropWhile_cons_of_neg (by simpa using hx)]
        simp

/-- Stripping a buffer of the form `article + " " + r` either gives back
exactly `article` (when `r` is all whitespace) or a string that still
begins with `article`. -/
theorem pyStrip_header (article r : List Char)
    (hart : ∀ c ∈ article, isPySpace c = false) :
    pyStrip (article ++ ' ' :: r) = article ∨
    article.isPrefixOf (pyStrip (article ++ ' ' :: r)) = true := by
  cases article with
  | nil => right; exact nil_isPrefixOf _
  | cons a as =>
    have hlstrip : ((a :: as) ++ ' ' :: r).dropWhile isPySpace
        = (a :: as) ++ ' ' :: r := by
      rw [List.cons_append]
      exact List.dropWhile_cons_of_neg
        (by simp [hart a (List.mem_cons_self a as)])
    unfold pyStrip
    rw [hlstrip]
    have hrev : ((a :: as) ++ ' ' :: r).reverse
        = r.reverse ++ ([' '] ++ (a :: as).reverse) := by
      rw [List.reverse_append, List.reverse_cons, List.append_assoc]
    rw [hrev]
    by_cases hr : ∀ c ∈ r, isPySpace c = true
    · left
      have h1 : (r.reverse ++ ([' '] ++ (a :: as).reverse)).dropWhile isPySpace
          = ([' '] ++ (a :: as).reverse).dropWhile isPySpace :=
        List.dropWhile_append_of_pos (fun x hx => hr x (List.mem_reverse.mp hx))
      have h2 : ([' '] ++ (a :: as).reverse).dropWhile isPySpace
          = (a :: as).reverse.dropWhile isPySpace := by
        show (' ' :: (a :: as).reverse).dropWhile isPySpace = _
        exact List.dropWhile_cons_of_pos (by decide)
      rw [h1, h2]
      cases harev : (a :: as).reverse with
      | nil => exact absurd harev (by simp)
      | cons b bs =>
        have hb : isPySpace b = false := by
          apply hart
          apply List.mem_reverse.mp
          rw [harev]
          exact List.mem_cons_self _ _
        rw [List.dropWhile_cons_of_neg (by simp [hb]), ← harev,
          List.reverse_reverse]
    · right
      push_neg at hr
      rcases hr with ⟨c, hcr, hc⟩
      have hc' : isPySpace c = false := by simpa using hc
      have hne : r.reverse.dropWhile isPySpace ≠ [] :=
        dropWhile_ne_nil_of_mem (List.mem_reverse.mpr hcr) hc'
      have h1 : (r.reverse ++ ([' '] ++ (a :: as).reverse)).dropWhile isPySpace
          = r.reverse.dropWhile isPySpace ++ ([' '] ++ (a :: as).reverse) := by
        rw [List.dropWhile_append, if_neg (by simpa using hne)]
      rw [h1, List.reverse_append, List.reverse_append, List.reverse_reverse]
      rw [List.append_assoc]
      have : [' '].reverse = [' '] := rfl
      rw [this]
      exact isPrefixOf_append _ _

/-- Invariant of the `_split_by_paragraph` loop: every emitted chunk
either still begins with the article header, or is one of the decoded
token windows of `split_by_tokens(article + " " + clause)` for an
oversized clause among the remaining parts. -/
theorem sbpGo_carrier (enc : Encoder) (article : List Char) (maxTokens : Nat)
    (hart : ∀ c ∈ article, isPySpace c = false) :
    ∀ (parts : List (List Char)) (cur : List Char) (ct : Nat),
      (∃ r, cur = article ++ ' ' :: r) →
      ∀ ch ∈ sbpGo enc article maxTokens parts cur ct,
        article.isPrefixOf ch = true ∨
        ∃ p ∈ parts, maxTokens < count_tokens enc p ∧
          ch ∈ split_by_tokens enc (article ++ ' ' :: p) maxTokens := by
  intro parts
  induction parts with
  | nil =>
    intro cur ct hcur ch hch
    rcases hcur with ⟨r, rfl⟩
    simp only [sbpGo] at hch
    by_cases hg : pyStrip (article ++ ' ' :: r) = article
    · rw [if_pos hg] at hch
      simp at hch
    · rw [if_neg hg] at hch
      rcases List.mem_singleton.mp hch with rfl
      rcases pyStrip_header article r hart with h | h
      · exact absurd h hg
      · exact Or.inl h
  | cons p ps ih =>
    intro cur ct hcur ch hch
    rcases hcur with ⟨r, rfl⟩
    simp only [sbpGo] at hch
    by_cases hskip : pyStrip p = []
    · rw [if_pos hskip] at hch
      rcases ih _ ct ⟨r, rfl⟩ ch hch with h | ⟨q, hq, hcq⟩
      · exact Or.inl h
      · exact Or.inr ⟨q, List.mem_cons_of_mem p hq, hcq⟩
    · rw [if_neg hskip] at hch
      by_cases hbig : maxTokens < count_tokens enc p
      · rw [if_pos hbig] at hch
        rcases List.mem_append.mp hch with hch1 | hch2
        · rcases List.mem_append.mp hch1 with hflush | hwin
          · by_cases hg : pyStrip (article ++ ' ' :: r) = article
            · rw [if_pos hg] at hflush
              simp at hflush
            · rw [if_neg hg] at hflush
              rcases List.mem_singleton.mp hflush with rfl
              rcases pyStrip_header article r hart with h | h
              · exact absurd h hg
              · exact Or.inl h
          · exact Or.inr ⟨p, List.mem_cons_self p ps, hbig, hwin⟩
        · rcases ih _ _ ⟨[], rfl⟩ ch hch2 with h | ⟨q, hq, hcq⟩
          · exact Or.inl h
          · exact Or.inr ⟨q, List.mem_cons_of_mem p hq, hcq⟩
      · rw [if_neg hbig] at hch
        by_cases hfit : ct + count_tokens enc p ≤ maxTokens
        · rw [if_pos hfit] at hch
          have harr : (article ++ ' ' :: r) ++ p ++ [' ']
              = article ++ ' ' :: (r ++ p ++ [' ']) := by
            simp [List.append_assoc]
          rw [harr] at hch
          rcases ih _ _ ⟨r ++ p ++ [' '], rfl⟩ ch hch with h | ⟨q, hq, hcq⟩
          · exact Or.inl h
          · exact Or.inr ⟨q, List.mem_cons_of_mem p hq, hcq⟩
        · rw [if_neg hfit] at hch
          rcases List.mem_append.mp hch with hflush | hch2
          · by_cases hg : pyStrip (article ++ ' ' :: r) = article
            · rw [if_pos hg] at hflush
              simp at hflush
            · rw [if_neg hg] at hflush
              rcases List.mem_singleton.mp hflush with rfl
              rcases pyStrip_header article r hart with h | h
              · exact absurd h hg
              · exact Or.inl h
          · rcases ih (article ++ ' ' :: p ++ [' '])
                (count_tokens enc (article ++ ' ' :: p ++ [' ']))
                ⟨p ++ [' '], by simp⟩ ch hch2 with h | ⟨q, hq, hcq⟩
            · exact Or.inl h
            · exact Or.inr ⟨q, List.mem_cons_of_mem p hq, hcq⟩

/-- Counterexample to C3 as stated: splitting article `제1조` whose
single clause `aaaaaa` exceeds `max_tokens = 5` (character tokenizer)
produces the chunk `"aaaaa"` — a forced token window that does not begin
with the article header. -/
theorem C3_counterexample :
    ¬ (∀ ch ∈ split_by_paragraph charEncoder "제1조".data "①aaaaaa".data 5,
        ("제1조".data).isPrefixOf ch = true) := by
  decide

/-- C3 (amended): provided the article header contains no whitespace (as
every matched `제N조` marker does), every content string returned by
`_split_by_paragraph` either begins with the article header, or is one of
the decoded token windows produced by the forced splitter from
`article + " " + clause` for a clause whose token count exceeds
`max_tokens` — and those windows need not begin with the header. -/
theorem C3_amended_header_provenance (enc : Encoder)
    (article content : List Char) (maxTokens : Nat)
    (hart : ∀ c ∈ article, isPySpace c = false) :
    ∀ ch ∈ split_by_paragraph enc article content maxTokens,
      article.isPrefixOf ch = true ∨
      ∃ p ∈ reSplit matchClauseAt content,
        maxTokens < count_tokens enc p ∧
        ch ∈ split_by_tokens enc (article ++ ' ' :: p) maxTokens := by
  intro ch hch
  exact sbpGo_carrier enc article maxTokens hart
    (reSplit matchClauseAt content) (article ++ [' '])
    (count_tokens enc (article ++ [' '])) ⟨[], rfl⟩ ch hch

/-- Witness for C3 (amended) at the counterexample input: every chunk is
header-prefixed or a forced window of an oversized clause. -/
theorem C3_amended_witness :
    (∀ c ∈ "제1조".data, isPySpace c = false) ∧
    (∀ ch ∈ split_by_paragraph charEncoder "제1조".data "①aaaaaa".data 5,
      ("제1조".data).isPrefixOf ch = true ∨
      ∃ p ∈ reSplit matchClauseAt "①aaaaaa".data,
        5 < count_tokens charEncoder p ∧
        ch ∈ split_by_tokens charEncoder ("제1조".data ++ ' ' :: p) 5) :=
  ⟨by decide,
   C3_amended_header_provenance charEncoder "제1조".data "①aaaaaa".data 5
     (by decide)⟩

/-! ### Claim C1: token-budget machinery -/

theorem digit_not_ws {c : Char} (h : c.isDigit = true) :
    isPySpace c = false := by
  unfold isPySpace
  simp only [Bool.or_eq_false_iff, decide_eq_false_iff_not]
  refine ⟨⟨⟨⟨⟨?_, ?_⟩, ?_⟩, ?_⟩, ?_⟩, ?_⟩ <;>
    · rintro rfl
      exact absurd h (by decide)

theorem drop_length_takeWhile (p : Char → Bool) :
    ∀ l : List Char, l.drop (l.takeWhile p).length = l.dropWhile p := by
  intro l
  induction l with
  | nil => rfl
  | cons c cs ih =>
    by_cases hc : p c = true
    · rw [List.takeWhile_cons_of_pos hc, List.dropWhile_cons_of_pos hc]
      exact ih
    · rw [List.takeWhile_cons_of_neg (by simpa using hc),
        List.dropWhile_cons_of_neg (by simpa using hc)]
      rfl

theorem eq_cons_of_head? {l : List Char} {a : Char}
    (h : l.head? = some a) : l = a :: l.tail := by
  cases l with
  | nil => cases h
  | cons c cs =>
    simp only [List.head?_cons, Option.some.injEq] at h
    rw [h]
    rfl

/-- Decomposition of a successful continuation match: the match plus the
rest reassemble the input, and the match is nonempty and free of
whitespace. -/
theorem matchArticleTail_spec (ds t m r : List Char)
    (hds : ∀ x ∈ ds, isPySpace x = false)
    (h : matchArticleTail ds t = (m, r)) :
    m ++ r = '제' :: ds ++ '조' :: t ∧ m ≠ [] ∧
      ∀ c ∈ m, isPySpace c = false := by
  have hmem1 : ∀ c ∈ '제' :: ds ++ ['조'], isPySpace c = false := by
    intro x hx
    rcases List.mem_cons.mp hx with h1 | h1
    · subst h1; decide
    · rcases List.mem_append.mp h1 with h2 | h2
      · exact hds x h2
      · rcases List.mem_singleton.mp h2 with rfl; decide
  unfold matchArticleTail at h
  by_cases hh : t.head? = some '의'
  · rw [if_pos hh] at h
    by_cases hds2 : (t.tail.takeWhile Char.isDigit).isEmpty
    · rw [if_pos hds2] at h
      cases h
      exact ⟨by simp, by simp, hmem1⟩
    · rw [if_neg hds2] at h
      cases h
      have ht : t = '의' :: t.tail := eq_cons_of_head? hh
      refine ⟨?_, by simp, ?_⟩
      · have htt : t.tail = t.tail.takeWhile Char.isDigit
            ++ t.tail.drop (t.tail.takeWhile Char.isDigit).length := by
          rw [drop_length_takeWhile]
          exact (List.takeWhile_append_dropWhile _ _).symm
        conv_rhs => rw [ht, htt]
        simp [List.append_assoc]
      · intro x hx
        rcases List.mem_cons.mp hx with h1 | h1
        · subst h1; decide
        · rcases List.mem_append.mp h1 with h2 | h2
          · exact hds x h2
          · rcases List.mem_cons.mp h2 with h3 | h3
            · subst h3; decide
            · rcases List.mem_cons.mp h3 with h4 | h4
              · subst h4; decide
              · exact digit_not_ws (List.mem_takeWhile_imp h4)
  · rw [if_neg hh] at h
    cases h
    exact ⟨by simp, by simp, hmem1⟩

/-- Decomposition of a successful article-pattern match: the input is the
match followed by the rest, and the matched text is nonempty and free of
whitespace. -/
theorem matchArticleAt_spec :
    ∀ (l m r : List Char), matchArticleAt l = some (m, r) →
      l = m ++ r ∧ m ≠ [] ∧ ∀ c ∈ m, isPySpace c = false := by
  intro l m r h
  cases l with
  | nil => cases h
  | cons c rest =>
    simp only [matchArticleAt] at h
    by_cases hc : c = '제'
    case neg => rw [if_neg hc] at h; cases h
    case pos =>
      rw [if_pos hc] at h
      subst hc
      by_cases hds : (rest.takeWhile Char.isDigit).isEmpty
      · rw [if_pos hds] at h
        cases h
      · rw [if_neg hds] at h
        by_cases hhead : (rest.drop (rest.takeWhile Char.isDigit).length).head?
            = some '조'
        · rw [if_pos hhead] at h
          have h' : matchArticleTail (rest.takeWhile Char.isDigit)
              (rest.drop (rest.takeWhile Char.isDigit).length).tail = (m, r) := by
            injection h
          have hds_mem : ∀ x ∈ rest.takeWhile Char.isDigit,
              isPySpace x = false :=
            fun x hx => digit_not_ws (List.mem_takeWhile_imp hx)
          rcases matchArticleTail_spec _ _ m r hds_mem h' with ⟨he, hm0, hmem⟩
          refine ⟨?_, hm0, hmem⟩
          have hrest : rest = rest.takeWhile Char.isDigit
              ++ rest.drop (rest.takeWhile Char.isDigit).length := by
            rw [drop_length_takeWhile]
            exact (List.takeWhile_append_dropWhile Char.isDigit rest).symm
          have hr1 : rest.drop (rest.takeWhile Char.isDigit).length
              = '조' :: (rest.drop (rest.takeWhile Char.isDigit).length).tail :=
            eq_cons_of_head? hhead
          show '제' :: rest = m ++ r
          rw [he]
          conv_lhs => rw [hrest, hr1]
          simp
        · rw [if_neg hhead] at h
          cases h

/-- A full article-marker match is nonempty and contains no whitespace. -/
theorem marker_no_ws {l : List Char} (h : isArticleMarker l = true) :
    l ≠ [] ∧ ∀ c ∈ l, isPySpace c = false := by
  unfold isArticleMarker at h
  cases hm : matchArticleAt l with
  | none => rw [hm] at h; cases h
  | some pr =>
    obtain ⟨m, r⟩ := pr
    rw [hm] at h
    have hr : r = [] := by simpa using h
    subst hr
    rcases matchArticleAt_spec l m [] hm with ⟨hl, hm0, hmem⟩
    rw [List.append_nil] at hl
    subst hl
    exact ⟨hm0, hmem⟩

/-- Stripping `article + " "` gives back `article` when the header has no
whitespace. -/
theorem pyStrip_append_space (article : List Char)
    (hart : ∀ c ∈ article, isPySpace c = false) :
    pyStrip (article ++ [' ']) = article := by
  cases article with
  | nil => rfl
  | cons a as =>
    have hlstrip : ((a :: as) ++ [' ']).dropWhile isPySpace
        = (a :: as) ++ [' '] := by
      rw [List.cons_append]
      exact List.dropWhile_cons_of_neg
        (by simp [hart a (List.mem_cons_self a as)])
    unfold pyStrip
    rw [hlstrip]
    have hrev : ((a :: as) ++ [' ']).reverse = ' ' :: (a :: as).reverse := by
      rw [List.reverse_append]
      rfl
    rw [hrev, List.dropWhile_cons_of_pos (by decide)]
    cases harev : (a :: as).reverse with
    | nil => exact absurd harev (by simp)
    | cons b bs =>
      have hb : isPySpace b = false := by
        apply hart
        apply List.mem_reverse.mp
        rw [harev]
        exact List.mem_cons_self _ _
      rw [List.dropWhile_cons_of_neg (by simp [hb]), ← harev,
        List.reverse_reverse]

/-- `_split_by_paragraph` with empty content emits nothing (the buffer
never grows past `article + " "`, which strips back to the header). -/
theorem split_by_paragraph_nil_content (enc : Encoder) (maxTokens : Nat)
    (article : List Char) (hart : ∀ c ∈ article, isPySpace c = false) :
    split_by_paragraph enc article [] maxTokens = [] := by
  unfold split_by_paragraph
  show sbpGo enc article maxTokens [[]] (article ++ [' '])
    (count_tokens enc (article ++ [' '])) = []
  have h1 : sbpGo enc article maxTokens [[]] (article ++ [' '])
      (count_tokens enc (article ++ [' ']))
      = sbpGo enc article maxTokens [] (article ++ [' '])
        (count_tokens enc (article ++ [' '])) := by
    simp [sbpGo, pyStrip]
  rw [h1]
  show (if pyStrip (article ++ [' ']) = article then []
    else [pyStrip (article ++ [' '])]) = []
  rw [if_pos (pyStrip_append_space article hart)]

/-- Token counts never grow when stripping: `pyStrip l` is a contiguous
part of `l`. -/
theorem pyStrip_infix : ∀ l : List Char, ∃ x z, l = x ++ pyStrip l ++ z := by
  intro l
  refine ⟨l.takeWhile isPySpace,
    ((l.dropWhile isPySpace).reverse.takeWhile isPySpace).reverse, ?_⟩
  conv_lhs => rw [← List.takeWhile_append_dropWhile (p := isPySpace) (l := l)]
  rw [List.append_assoc]
  congr 1
  show l.dropWhile isPySpace = pyStrip l
    ++ ((l.dropWhile isPySpace).reverse.takeWhile isPySpace).reverse
  unfold pyStrip
  calc l.dropWhile isPySpace
      = (l.dropWhile isPySpace).reverse.reverse := (List.reverse_reverse _).symm
    _ = ((l.dropWhile isPySpace).reverse.takeWhile isPySpace
        ++ (l.dropWhile isPySpace).reverse.dropWhile isPySpace).reverse := by
        rw [List.takeWhile_append_dropWhile]
    _ = ((l.dropWhile isPySpace).reverse.dropWhile isPySpace).reverse
        ++ ((l.dropWhile isPySpace).reverse.takeWhile isPySpace).reverse := by
        rw [List.reverse_append]

theorem count_pyStrip_le (enc : Encoder)
    (HM : ∀ a b c, count_tokens enc b ≤ count_tokens enc (a ++ b ++ c))
    (l : List Char) : count_tokens enc (pyStrip l) ≤ count_tokens enc l := by
  rcases pyStrip_infix l with ⟨x, z, he⟩
  calc count_tokens enc (pyStrip l)
      ≤ count_tokens enc (x ++ pyStrip l ++ z) := HM x _ z
    _ = count_tokens enc l := by rw [← he]

theorem count_join (enc : Encoder)
    (HA : ∀ a b, count_tokens enc (a ++ b)
      ≤ count_tokens enc a + count_tokens enc b)
    (HS : count_tokens enc [' '] = 0) (a b : List Char) :
    count_tokens enc (a ++ ' ' :: b)
      ≤ count_tokens enc a + count_tokens enc b := by
  have h1 : a ++ ' ' :: b = (a ++ [' ']) ++ b := by simp
  rw [h1]
  calc count_tokens enc ((a ++ [' ']) ++ b)
      ≤ count_tokens enc (a ++ [' ']) + count_tokens enc b := HA _ _
    _ ≤ (count_tokens enc a + count_tokens enc [' ']) + count_tokens enc b :=
        Nat.add_le_add_right (HA _ _) _
    _ = count_tokens enc a + count_tokens enc b := by rw [HS]; omega

theorem count_trail (enc : Encoder)
    (HA : ∀ a b, count_tokens enc (a ++ b)
      ≤ count_tokens enc a + count_tokens enc b)
    (HS : count_tokens enc [' '] = 0) (a b : List Char) :
    count_tokens enc (a ++ b ++ [' '])
      ≤ count_tokens enc a + count_tokens enc b := by
  calc count_tokens enc (a ++ b ++ [' '])
      ≤ count_tokens enc (a ++ b) + count_tokens enc [' '] := HA _ _
    _ = count_tokens enc (a ++ b) := by rw [HS]; omega
    _ ≤ count_tokens enc a + count_tokens enc b := HA _ _

/-- Every decoded token window of `split_by_tokens` stays within the
budget, provided re-encoding a decoded window never yields more token ids
than the window held. -/
theorem split_by_tokens_bound (enc : Encoder)
    (HR : ∀ w : List Nat, (enc.encode (enc.decode w)).length ≤ w.length)
    (t : List Char) (maxTokens : Nat) :
    ∀ ch ∈ split_by_tokens enc t maxTokens,
      count_tokens enc ch ≤ maxTokens := by
  intro ch hch
  unfold split_by_tokens at hch
  rcases List.mem_map.mp hch with ⟨w, hw, rfl⟩
  calc count_tokens enc (enc.decode w) ≤ w.length := HR w
    _ ≤ maxTokens := tokenWindowsAux_mem_le maxTokens _ _ w hw

theorem zip_tail_subset {α : Type} (x : α × α) :
    ∀ l : List α, x ∈ l.tail.zip l.tail.tail → x ∈ l.zip l.tail := by
  intro l hx
  cases l with
  | nil => simp at hx
  | cons p ps =>
    cases ps with
    | nil => simp at hx
    | cons q qs => exact List.mem_cons_of_mem _ hx

/-- Budget invariant of the `_split_by_paragraph` loop, under a
space-absorbing, substring-monotone token count and a non-expanding
re-encoding. -/
theorem sbpGo_bound (enc : Encoder) (article : List Char) (maxTokens : Nat)
    (HA : ∀ a b, count_tokens enc (a ++ b)
      ≤ count_tokens enc a + count_tokens enc b)
    (HS : count_tokens enc [' '] = 0)
    (HM : ∀ a b c, count_tokens enc b ≤ count_tokens enc (a ++ b ++ c))
    (HR : ∀ w : List Nat, (enc.encode (enc.decode w)).length ≤ w.length)
    (hart0 : count_tokens enc (article ++ [' ']) ≤ maxTokens) :
    ∀ (parts : List (List Char)) (cur : List Char) (ct : Nat),
      count_tokens enc cur ≤ ct → ct ≤ maxTokens →
      (∀ p ∈ parts,
        count_tokens enc (article ++ ' ' :: p ++ [' ']) ≤ maxTokens) →
      ∀ ch ∈ sbpGo enc article maxTokens parts cur ct,
        count_tokens enc ch ≤ maxTokens := by
  intro parts
  induction parts with
  | nil =>
    intro cur ct hcur hct _ ch hch
    simp only [sbpGo] at hch
    by_cases hg : pyStrip cur = article
    · rw [if_pos hg] at hch
      simp at hch
    · rw [if_neg hg] at hch
      rcases List.mem_singleton.mp hch with rfl
      exact le_trans (le_trans (count_pyStrip_le enc HM cur) hcur) hct
  | cons p ps ih =>
    intro cur ct hcur hct hfit ch hch
    simp only [sbpGo] at hch
    by_cases hskip : pyStrip p = []
    · rw [if_pos hskip] at hch
      exact ih cur ct hcur hct
        (fun q hq => hfit q (List.mem_cons_of_mem p hq)) ch hch
    · rw [if_neg hskip] at hch
      by_cases hbig : maxTokens < count_tokens enc p
      · rw [if_pos hbig] at hch
        rcases List.mem_append.mp hch with hch1 | hch2
        · rcases List.mem_append.mp hch1 with hflush | hwin
          · by_cases hg : pyStrip cur = article
            · rw [if_pos hg] at hflush
              simp at hflush
            · rw [if_neg hg] at hflush
              rcases List.mem_singleton.mp hflush with rfl
              exact le_trans (le_trans (count_pyStrip_le enc HM cur) hcur) hct
          · exact split_by_tokens_bound enc HR _ _ ch hwin
        · exact ih _ _ le_rfl hart0
            (fun q hq => hfit q (List.mem_cons_of_mem p hq)) ch hch2
      · rw [if_neg hbig] at hch
        by_cases hfits : ct + count_tokens enc p ≤ maxTokens
        · rw [if_pos hfits] at hch
          have hcur' : count_tokens enc (cur ++ p ++ [' '])
              ≤ ct + count_tokens enc p :=
            le_trans (count_trail enc HA HS cur p)
              (Nat.add_le_add_right hcur _)
          exact ih _ _ hcur' hfits
            (fun q hq => hfit q (List.mem_cons_of_mem p hq)) ch hch
        · rw [if_neg hfits] at hch
          rcases List.mem_append.mp hch with hflush | hch2
          · by_cases hg : pyStrip cur = article
            · rw [if_pos hg] at hflush
              simp at hflush
            · rw [if_neg hg] at hflush
              rcases List.mem_singleton.mp hflush with rfl
              exact le_trans (le_trans (count_pyStrip_le enc HM cur) hcur) hct
          · exact ih _ _ le_rfl (hfit p (List.mem_cons_self p ps))
              (fun q hq => hfit q (List.mem_cons_of_mem p hq)) ch hch2

/-- Budget bound for `_split_by_paragraph`. -/
theorem split_by_paragraph_bound (enc : Encoder) (article content : List Char)
    (maxTokens : Nat)
    (HA : ∀ a b, count_tokens enc (a ++ b)
      ≤ count_tokens enc a + count_tokens enc b)
    (HS : count_tokens enc [' '] = 0)
    (HM : ∀ a b c, count_tokens enc b ≤ count_tokens enc (a ++ b ++ c))
    (HR : ∀ w : List Nat, (enc.encode (enc.decode w)).length ≤ w.length)
    (hart0 : count_tokens enc (article ++ [' ']) ≤ maxTokens)
    (hfit : ∀ p ∈ reSplit matchClauseAt content,
      count_tokens enc (article ++ ' ' :: p ++ [' ']) ≤ maxTokens) :
    ∀ ch ∈ split_by_paragraph enc article content maxTokens,
      count_tokens enc ch ≤ maxTokens := by
  intro ch hch
  exact sbpGo_bound enc article maxTokens HA HS HM HR hart0
    (reSplit matchClauseAt content) (article ++ [' ']) _ le_rfl hart0 hfit ch hch

theorem mem_flush {cur ch : List Char}
    (h : ch ∈ (if cur = [] then ([] : List (List Char)) else [cur])) :
    cur ≠ [] ∧ ch = cur := by
  by_cases hce : cur = []
  · rw [if_pos hce] at h
    simp at h
  · rw [if_neg hce] at h
    exact ⟨hce, List.mem_singleton.mp h⟩

/-- Budget invariant of the `split_by_article` loop: under a
space-absorbing, substring-monotone token count, a non-expanding
re-encoding, and header/clause combinations that fit the budget, every
emitted chunk stays within `max_tokens`. -/
theorem sbaGo_bound (enc : Encoder) (maxTokens : Nat)
    (HA : ∀ a b, count_tokens enc (a ++ b)
      ≤ count_tokens enc a + count_tokens enc b)
    (HS : count_tokens enc [' '] = 0)
    (HM : ∀ a b c, count_tokens enc b ≤ count_tokens enc (a ++ b ++ c))
    (HR : ∀ w : List Nat, (enc.encode (enc.decode w)).length ≤ w.length) :
    ∀ (fuel : Nat) (parts : List (List Char)) (cur : List Char) (ct : Nat),
      (cur ≠ [] → count_tokens enc cur ≤ ct) → ct ≤ maxTokens →
      (∀ pq ∈ parts.zip parts.tail, isArticleMarker (pyStrip pq.1) = true →
        count_tokens enc (pyStrip pq.1 ++ [' ']) ≤ maxTokens ∧
        ∀ q ∈ reSplit matchClauseAt (pyStrip pq.2),
          count_tokens enc (pyStrip pq.1 ++ ' ' :: q ++ [' ']) ≤ maxTokens) →
      ∀ ch ∈ sbaGo enc maxTokens fuel parts cur ct,
        count_tokens enc ch ≤ maxTokens := by
  intro fuel
  induction fuel with
  | zero =>
    intro parts cur ct hcur hct _ ch hch
    have hch' : ch ∈ (if cur = [] then ([] : List (List Char)) else [cur]) := by
      cases parts with
      | nil => exact hch
      | cons p ps => exact hch
    rcases mem_flush hch' with ⟨hne, rfl⟩
    exact le_trans (hcur hne) hct
  | succ fuel ih =>
    intro parts cur ct hcur hct hHF ch hch
    cases parts with
    | nil =>
      rcases mem_flush hch with ⟨hne, rfl⟩
      exact le_trans (hcur hne) hct
    | cons p ps =>
      simp only [sbaGo] at hch
      by_cases hskip : pyStrip p = []
      · rw [if_pos hskip] at hch
        exact ih ps cur ct hcur hct
          (fun pq hpq => hHF pq (zip_tail_subset pq (p :: ps) hpq)) ch hch
      · rw [if_neg hskip] at hch
        by_cases hmark : isArticleMarker (pyStrip p) = true
        · rw [if_pos hmark] at hch
          cases ps with
          | nil =>
            simp only [List.head?_nil, Option.map_none', Option.getD_none] at hch
            by_cases htt : count_tokens enc (pyStrip p ++ ' ' :: ([] : List Char))
                ≤ maxTokens
            · rw [if_pos htt] at hch
              by_cases hfits : ct + count_tokens enc (pyStrip p ++ ' ' :: ([] : List Char))
                  ≤ maxTokens
              · rw [if_pos hfits] at hch
                refine ih [].tail _ _ ?_ hfits
                  (fun pq hpq => by simp at hpq) ch hch
                intro _
                by_cases hce : cur = []
                · rw [if_pos hce]
                  exact Nat.le_add_left _ _
                · rw [if_neg hce]
                  exact le_trans (count_join enc HA HS cur _)
                    (Nat.add_le_add_right (hcur hce) _)
              · rw [if_neg hfits] at hch
                rcases List.mem_append.mp hch with hflush | hch2
                · rcases mem_flush hflush with ⟨hne, rfl⟩
                  exact le_trans (hcur hne) hct
                · exact ih [].tail _ _ (fun _ => le_rfl) htt
                    (fun pq hpq => by simp at hpq) ch hch2
            · rw [if_neg htt] at hch
              rcases List.mem_append.mp hch with hch1 | hch2
              · rcases List.mem_append.mp hch1 with hflush | hsbp
                · rcases mem_flush hflush with ⟨hne, rfl⟩
                  exact le_trans (hcur hne) hct
                · rw [split_by_paragraph_nil_content enc maxTokens (pyStrip p)
                    (marker_no_ws hmark).2] at hsbp
                  simp at hsbp
              · exact ih [].tail _ _ (fun h => absurd rfl h) (Nat.zero_le _)
                  (fun pq hpq => by simp at hpq) ch hch2
          | cons q qs =>
            simp only [List.head?_cons, Option.map_some', Option.getD_some] at hch
            have hpair : ((p, q) : List Char × List Char)
                ∈ (p :: q :: qs).zip (q :: qs) := by
              rw [List.zip_cons_cons]
              exact List.mem_cons_self _ _
            have hHFtail : ∀ pq ∈ (q :: qs).zip qs,
                isArticleMarker (pyStrip pq.1) = true →
                count_tokens enc (pyStrip pq.1 ++ [' ']) ≤ maxTokens ∧
                ∀ r ∈ reSplit matchClauseAt (pyStrip pq.2),
                  count_tokens enc (pyStrip pq.1 ++ ' ' :: r ++ [' '])
                    ≤ maxTokens := by
              intro pq hpq
              exact hHF pq (zip_tail_subset pq (p :: q :: qs) hpq)
            have hHFtail2 : ∀ pq ∈ ((q :: qs).tail).zip ((q :: qs).tail).tail,
                isArticleMarker (pyStrip pq.1) = true →
                count_tokens enc (pyStrip pq.1 ++ [' ']) ≤ maxTokens ∧
                ∀ r ∈ reSplit matchClauseAt (pyStrip pq.2),
                  count_tokens enc (pyStrip pq.1 ++ ' ' :: r ++ [' '])
                    ≤ maxTokens := by
              intro pq hpq
              exact hHFtail pq (zip_tail_subset pq (q :: qs) hpq)
            by_cases htt : count_tokens enc (pyStrip p ++ ' ' :: pyStrip q)
                ≤ maxTokens
            · rw [if_pos htt] at hch
              by_cases hfits : ct + count_tokens enc (pyStrip p ++ ' ' :: pyStrip q)
                  ≤ maxTokens
              · rw [if_pos hfits] at hch
                refine ih (q :: qs).tail _ _ ?_ hfits hHFtail2 ch hch
                intro _
                by_cases hce : cur = []
                · rw [if_pos hce]
                  exact Nat.le_add_left _ _
                · rw [if_neg hce]
                  exact le_trans (count_join enc HA HS cur _)
                    (Nat.add_le_add_right (hcur hce) _)
              · rw [if_neg hfits] at hch
                rcases List.mem_append.mp hch with hflush | hch2
                · rcases mem_flush hflush with ⟨hne, rfl⟩
                  exact le_trans (hcur hne) hct
                · exact ih (q :: qs).tail _ _ (fun _ => le_rfl) htt hHFtail2 ch hch2
            · rw [if_neg htt] at hch
              rcases List.mem_append.mp hch with hch1 | hch2
              · rcases List.mem_append.mp hch1 with hflush | hsbp
                · rcases mem_flush hflush with ⟨hne, rfl⟩
                  exact le_trans (hcur hne) hct
                · rcases hHF (p, q) hpair hmark with ⟨hart0q, hfitq⟩
                  exact split_by_paragraph_bound enc (pyStrip p) (pyStrip q)
                    maxTokens HA HS HM HR hart0q hfitq ch hsbp
              · exact ih (q :: qs).tail _ _ (fun h => absurd rfl h)
                  (Nat.zero_le _) hHFtail2 ch hch2
        · rw [if_neg hmark] at hch
          by_cases hbig : maxTokens < count_tokens enc (pyStrip p)
          · rw [if_pos hbig] at hch
            rcases List.mem_append.mp hch with hch1 | hch2
            · rcases List.mem_append.mp hch1 with hflush | hwin
              · rcases mem_flush hflush with ⟨hne, rfl⟩
                exact le_trans (hcur hne) hct
              · exact split_by_tokens_bound enc HR _ _ ch hwin
            · exact ih ps _ _ (fun h => absurd rfl h) (Nat.zero_le _)
                (fun pq hpq => hHF pq (zip_tail_subset pq (p :: ps) hpq)) ch hch2
          · rw [if_neg hbig] at hch
            by_cases hfits : ct + count_tokens enc (pyStrip p) ≤ maxTokens
            · rw [if_pos hfits] at hch
              refine ih ps _ _ ?_ hfits
                (fun pq hpq => hHF pq (zip_tail_subset pq (p :: ps) hpq)) ch hch
              intro _
              by_cases hce : cur = []
              · rw [if_pos hce]
                exact Nat.le_add_left _ _
              · rw [if_neg hce]
                exact le_trans (count_join enc HA HS cur _)
                  (Nat.add_le_add_right (hcur hce) _)
            · rw [if_neg hfits] at hch
              rcases List.mem_append.mp hch with hflush | hch2
              · rcases mem_flush hflush with ⟨hne, rfl⟩
                exact le_trans (hcur hne) hct
              · exact ih ps _ _ (fun _ => le_rfl) (Nat.le_of_not_lt hbig)
                  (fun pq hpq => hHF pq (zip_tail_subset pq (p :: ps) hpq)) ch hch2

/-- Counterexample to C1 as stated: with a tokenizer under which token
counts are additive (one token per character) and `max_tokens = 12`, the
greedy packing of `"제1조 aa"` (6 tokens) and `"제2조 bb"` (6 tokens)
passes the tracked-count check `6 + 6 ≤ 12`, but the emitted chunk
`"제1조 aa 제2조 bb"` contains an uncounted joining space and has 13
tokens — and it is not a forced token window, so the claim's exception
does not apply. -/
theorem C1_counterexample :
    ¬ (∀ ch ∈ split_by_article charEncoder "제1조 aa제2조 bb".data 12,
        count_tokens charEncoder ch ≤ 12) := by
  decide

/-- C1 (amended): the token budget holds for every chunk emitted by
`split_by_article` under a tokenizer whose counts are subadditive over
concatenation and absorb the joining space (`count (a ++ " " ++ b) ≤
count a + count b`), are monotone under taking contiguous substrings, and
never expand when re-encoding a decoded token window — provided every
article header fits the budget with a trailing space and every
header-plus-single-clause combination arising in sub-unit splitting fits
the budget.  Without the space-absorption hypothesis the uncounted
joining spaces can push an accumulated chunk over the budget, and without
the header-plus-clause proviso the sub-unit splitter can seed its buffer
with `header + " " + clause` already over the budget. -/
theorem C1_amended_token_budget (enc : Encoder) (text : List Char)
    (maxTokens : Nat)
    (HA : ∀ a b, count_tokens enc (a ++ b)
      ≤ count_tokens enc a + count_tokens enc b)
    (HS : count_tokens enc [' '] = 0)
    (HM : ∀ a b c, count_tokens enc b ≤ count_tokens enc (a ++ b ++ c))
    (HR : ∀ w : List Nat, (enc.encode (enc.decode w)).length ≤ w.length)
    (HF : ∀ pq ∈ (reSplit matchArticleAt text).zip
        (reSplit matchArticleAt text).tail,
      isArticleMarker (pyStrip pq.1) = true →
      count_tokens enc (pyStrip pq.1 ++ [' ']) ≤ maxTokens ∧
      ∀ q ∈ reSplit matchClauseAt (pyStrip pq.2),
        count_tokens enc (pyStrip pq.1 ++ ' ' :: q ++ [' ']) ≤ maxTokens) :
    ∀ ch ∈ split_by_article enc text maxTokens,
      count_tokens enc ch ≤ maxTokens := by
  intro ch hch
  unfold split_by_article at hch
  exact sbaGo_bound enc maxTokens HA HS HM HR
    (reSplit matchArticleAt text).length (reSplit matchArticleAt text) [] 0
    (fun h => absurd rfl h) (Nat.zero_le _) HF ch hch

theorem nsEncoder_subadd (a b : List Char) :
    count_tokens nsEncoder (a ++ b)
      ≤ count_tokens nsEncoder a + count_tokens nsEncoder b := by
  simp [count_tokens, nsEncoder, List.filter_append]

theorem nsEncoder_space : count_tokens nsEncoder [' '] = 0 := by decide

theorem nsEncoder_infix (a b c : List Char) :
    count_tokens nsEncoder b ≤ count_tokens nsEncoder (a ++ b ++ c) := by
  simp [count_tokens, nsEncoder, List.filter_append]
  omega

theorem nsEncoder_reencode (w : List Nat) :
    (nsEncoder.encode (nsEncoder.decode w)).length ≤ w.length := by
  show (((w.map Char.ofNat).filter _).map Char.toNat).length ≤ w.length
  rw [List.length_map]
  calc ((w.map Char.ofNat).filter _).length
      ≤ (w.map Char.ofNat).length := List.length_filter_le _ _
    _ = w.length := List.length_map _ _

/-- Witness for C1 (amended) at the space-ignoring tokenizer, a one-article
text and `max_tokens = 10`. -/
theorem C1_amended_witness :
    (∀ pq ∈ (reSplit matchArticleAt "제1조 가나".data).zip
        (reSplit matchArticleAt "제1조 가나".data).tail,
      isArticleMarker (pyStrip pq.1) = true →
      count_tokens nsEncoder (pyStrip pq.1 ++ [' ']) ≤ 10 ∧
      ∀ q ∈ reSplit matchClauseAt (pyStrip pq.2),
        count_tokens nsEncoder (pyStrip pq.1 ++ ' ' :: q ++ [' ']) ≤ 10) ∧
    (∀ ch ∈ split_by_article nsEncoder "제1조 가나".data 10,
      count_tokens nsEncoder ch ≤ 10) :=
  ⟨by decide,
   C1_amended_token_budget nsEncoder "제1조 가나".data 10
     nsEncoder_subadd nsEncoder_space nsEncoder_infix nsEncoder_reencode
     (by decide)⟩

end LegalChunking
